import Mathlib

/-!
Verification development for the Bayleaf recipe-extraction engine
(`src/app/recipes.py`).  The Python source is shallowly embedded: pure
helpers become Lean functions over `List Char` / `String`, the two
HTML-driven parsers become explicit state machines over an event stream
(`Ev`), and the per-book extraction loops become structural recursions
with an explicit early-exit flag.  Character-level operations model the
ASCII behaviour of the corresponding Python primitives (`str.strip`,
`str.split`, `re` with `IGNORECASE`, `posixpath`, `pathlib.PurePosixPath`).
-/

namespace Bayleaf

/-! ## Character and string primitives (ASCII models of Python behaviour) -/

/-- Whitespace characters recognised by Python `str.split()` / `str.strip()`
(ASCII fragment). -/
def isWs (c : Char) : Bool :=
  c == ' ' || c == '\t' || c == '\n' || c == '\r' || c == '\x0b' || c == '\x0c'

/-- Word characters of the `re` class `\w` (ASCII fragment): `[A-Za-z0-9_]`. -/
def wchar (c : Char) : Bool := c.isAlphanum || c == '_'

/-- Case-insensitive char comparison as done by `re.IGNORECASE` (ASCII). -/
def lc (c : Char) : Char := c.toLower

/-- Case-sensitive: does `pat` occur at the head of `s`? -/
def litHead : List Char → List Char → Bool
  | [], _ => true
  | _ :: _, [] => false
  | a :: as, b :: bs => (a == b) && litHead as bs

/-- Case-sensitive substring search, the Python `in` operator on `str`. -/
def litSub (pat : List Char) : List Char → Bool
  | [] => litHead pat []
  | c :: cs => litHead pat (c :: cs) || litSub pat cs

/-- Case-insensitive: does `pat` occur at the head of `s`? -/
def ciHead : List Char → List Char → Bool
  | [], _ => true
  | _ :: _, [] => false
  | a :: as, b :: bs => (lc a == lc b) && ciHead as bs

/-- Case-insensitive substring search (an unanchored `re.IGNORECASE` literal). -/
def ciSub (pat : List Char) : List Char → Bool
  | [] => ciHead pat []
  | c :: cs => ciHead pat (c :: cs) || ciSub pat cs

/-- Python `s.startswith(pat)`. -/
def pyStarts (pat s : String) : Bool := litHead pat.data s.data

/-- Python `pat in s`. -/
def pyIn (pat s : String) : Bool := litSub pat.data s.data

/-- Python `s.strip()` on a character list. -/
def pyStripL (l : List Char) : List Char :=
  ((l.dropWhile isWs).reverse.dropWhile isWs).reverse

/-- Python `s.strip()`. -/
def pyStrip (s : String) : String := ⟨pyStripL s.data⟩

/-- Python `s.lstrip("/")`: drop every leading slash. -/
def lstripSlashes (s : String) : String := ⟨s.data.dropWhile (· == '/')⟩

/-- `" ".join(parts)` on character lists. -/
def spJoin : List (List Char) → List Char
  | [] => []
  | [w] => w
  | w :: ws => w ++ ' ' :: spJoin ws

/-- `"/".join(parts)` on character lists. -/
def slashJoin : List (List Char) → List Char
  | [] => []
  | [w] => w
  | w :: ws => w ++ '/' :: slashJoin ws

/-- Helper for `str.split()`: accumulate the current word (reversed). -/
def wordsAux (cur : List Char) : List Char → List (List Char)
  | [] => if cur.isEmpty then [] else [cur.reverse]
  | c :: cs =>
    if isWs c then
      if cur.isEmpty then wordsAux [] cs else cur.reverse :: wordsAux [] cs
    else wordsAux (c :: cur) cs

/-- Python `s.split()` (split on whitespace runs, dropping empty pieces). -/
def pyWordsL (s : List Char) : List (List Char) := wordsAux [] s

/-- `" ".join(" ".join(buf).split()).strip()`: the whitespace normalisation
applied to a buffered text run in both parsers. -/
def normBuf (buf : List String) : String :=
  ⟨pyStripL (spJoin (pyWordsL (spJoin (buf.map String.data))))⟩

/-- `"\n".join(lines)`. -/
def joinNL : List String → String
  | [] => ""
  | [x] => x
  | x :: xs => x ++ "\n" ++ joinNL xs

/-- `s or None` applied to a possibly-empty string. -/
def optStr (s : String) : Option String := if s == "" then none else some s

/-- Python truthiness of an `Optional[str]`: `None` and `""` are falsy. -/
def pyFalsyStr : Option String → Bool
  | none => true
  | some s => s == ""

/-! ## The regular expressions of `recipes.py` -/

/-- The literal alternatives of `IGNORE_TITLE_RE` (no anchors, `IGNORECASE`). -/
def ignoreLits : List String :=
  ["acknowledg", "equipment", "conversion", "glossary", "index",
   "about the author", "contents", "introduction", "chapter",
   "bibliography", "notes", "preface"]

/-- `IGNORE_TITLE_RE.search(title)` / `_title_ignored(title)`. -/
def title_ignored (t : String) : Bool :=
  ignoreLits.any (fun lit => ciSub lit.data t.data)

/-- Search for `pat` preceded by a `\b` word boundary (`pat` starts with a
word character, so the boundary demands start-of-string or a preceding
non-word character).  `prevW` records whether the previous character was a
word character. -/
def searchBW (pat : List Char) : Bool → List Char → Bool
  | _, [] => false
  | prevW, c :: cs => (!prevW && ciHead pat (c :: cs)) || searchBW pat (wchar c) cs

/-- Does `pat` occur at the head of `s` followed by a `\b` boundary
(end of string or a non-word character)? -/
def ciWordHere (pat : List Char) (s : List Char) : Bool :=
  ciHead pat s &&
    (match s.drop pat.length with
     | [] => true
     | c :: _ => !wchar c)

/-- Search for `pat` as a whole word: `\b pat \b`. -/
def searchWordB (pat : List Char) : Bool → List Char → Bool
  | _, [] => false
  | prevW, c :: cs => (!prevW && ciWordHere pat (c :: cs)) || searchWordB pat (wchar c) cs

/-- `INGREDIENTS_RE.search(t)` for `re.compile(r"\bingredient", re.IGNORECASE)`. -/
def INGREDIENTS_RE (t : String) : Bool := searchBW "ingredient".data false t.data

/-- `METHOD_RE.search(t)` for
`re.compile(r"\b(method|direction|instruction|preparation)\b", re.IGNORECASE)`. -/
def METHOD_RE (t : String) : Bool :=
  ["method", "direction", "instruction", "preparation"].any
    (fun w => searchWordB w.data false t.data)

/-! ## Path resolution models

The generic classifier resolves a relative image source with
`pathlib.PurePosixPath` (which drops `.` segments and duplicate slashes but
preserves `..`); the specialised parser uses `posixpath.dirname` /
`posixpath.join` / `posixpath.normpath` (which also collapses `..`). -/

/-- Number of root slashes kept by both `posixpath.normpath` and
`PurePosixPath`: two leading slashes are preserved as `//`; one, or three or
more, collapse to `/`. -/
def initSlashes : List Char → Nat
  | '/' :: '/' :: '/' :: _ => 1
  | '/' :: '/' :: _ => 2
  | '/' :: _ => 1
  | _ => 0

/-- Python `s.split('/')`. -/
def splitSl : List Char → List (List Char)
  | [] => [[]]
  | c :: cs =>
    if c == '/' then [] :: splitSl cs
    else
      match splitSl cs with
      | w :: ws => (c :: w) :: ws
      | [] => [[c]]

/-- One step of `posixpath.normpath`'s component scan.  `acc` is the output
component stack, most recent first. -/
def normComp (hasInit : Bool) (acc : List (List Char)) (comp : List Char) : List (List Char) :=
  if comp = [] ∨ comp = ['.'] then acc
  else if comp ≠ ['.', '.'] ∨ (hasInit = false ∧ acc = []) ∨ acc.head? = some ['.', '.'] then
    comp :: acc
  else acc.tail

/-- `posixpath.normpath` on a character list. -/
def normpathL (p : List Char) : List Char :=
  if p = [] then ['.']
  else
    let isl := initSlashes p
    let comps := splitSl p
    let nc := (comps.foldl (normComp (isl != 0)) []).reverse
    let path := List.replicate isl '/' ++ slashJoin nc
    if path = [] then ['.'] else path

/-- `posixpath.normpath`. -/
def normpath (s : String) : String := ⟨normpathL s.data⟩

/-- `posixpath.dirname` on a character list. -/
def dirnameL (p : List Char) : List Char :=
  let head := (p.reverse.dropWhile (fun c => c != '/')).reverse
  if head ≠ [] ∧ ¬ (head.all (fun c => c == '/')) then
    (head.reverse.dropWhile (fun c => c == '/')).reverse
  else head

/-- `posixpath.dirname`. -/
def dirname (s : String) : String := ⟨dirnameL s.data⟩

/-- `posixpath.join(a, b)` (two arguments). -/
def posixJoinL (a b : List Char) : List Char :=
  if litHead ['/'] b then b
  else if a = [] ∨ a.getLast? = some '/' then a ++ b
  else a ++ '/' :: b

/-- `posixpath.join`. -/
def posixJoin (a b : String) : String := ⟨posixJoinL a.data b.data⟩

/-- Image resolution in `CrumbsParser.handle_starttag`:
`posixpath.normpath(posixpath.join(posixpath.dirname(href), src)).lstrip("/")`. -/
def crumbsResolve (href src : String) : String :=
  lstripSlashes (normpath (posixJoin (dirname href) src))

/-- The `PurePosixPath` value model: number of root slashes plus the parsed
segments (empty and `.` segments dropped, `..` preserved). -/
structure PP where
  rootSl : Nat
  parts : List (List Char)
deriving DecidableEq

/-- Segment filtering done by `PurePosixPath` parsing. -/
def ppSegs (s : List Char) : List (List Char) :=
  (splitSl s).filter (fun g => g ≠ [] ∧ g ≠ ['.'])

/-- `PurePosixPath(s)`. -/
def ppParse (s : List Char) : PP := ⟨initSlashes s, ppSegs s⟩

/-- `PurePosixPath.parent`: drop the last segment; the root-or-dot path is
its own parent. -/
def ppParent (p : PP) : PP :=
  if p.parts = [] then p else ⟨p.rootSl, p.parts.dropLast⟩

/-- `p / src` for a relative `src`. -/
def ppJoinRel (p : PP) (src : List Char) : PP := ⟨p.rootSl, p.parts ++ ppSegs src⟩

/-- `str(p)` (equal to `p.as_posix()` for the posix flavour). -/
def ppStr (p : PP) : List Char :=
  if p.rootSl = 0 ∧ p.parts = [] then ['.']
  else List.replicate p.rootSl '/' ++ slashJoin p.parts

/-- Image resolution in `_collect_recipe_from_section`: absolute sources are
`lstrip("/")`-ed, relative ones are joined onto `PurePosixPath(href).parent`. -/
def genericResolve (href src : String) : String :=
  if pyStarts "/" src then lstripSlashes src
  else ⟨ppStr (ppJoinRel (ppParent (ppParse href.data)) src.data)⟩

/-! ## Data model -/

/-- A block emitted by the block extractor (`TextBlock` in the source). -/
structure TextBlock where
  tag : String
  text : String
  level : Option Nat := none
  elementId : Option String := none
deriving DecidableEq

/-- `TextBlock.is_heading`. -/
def TextBlock.is_heading (b : TextBlock) : Bool := b.level.isSome

/-- A recipe record as emitted by either pipeline. -/
structure Recipe where
  title : String
  ingredientsText : Option String
  methodText : String
  sourceType : String
  sourceKey : String
  imageHref : Option String
  locationType : String
  locationValue : String
deriving DecidableEq

/-- `source_key` computation, shared by both pipelines: the identifier is
used only when Python-truthy (present and non-empty). -/
def sourceKeyOf (href : String) (idOpt : Option String) : String :=
  match idOpt with
  | some i => if i ≠ "" then href ++ "#" ++ i else href
  | none => href

/-! ## HTML events

`html.parser.HTMLParser` (standard library, outside this repository)
tokenises markup and dispatches `handle_starttag` / `handle_data` /
`handle_endtag`.  We model a parsed document as the list of those dispatch
events. -/

/-- One handler dispatch from the HTML tokenizer. -/
inductive Ev where
  | startE (tag : String) (attrs : List (String × Option String))
  | dataE (s : String)
  | endE (tag : String)
deriving DecidableEq

/-- `{k: v for k, v in attrs}.get(key)`: the last binding of `key` wins and
an attribute present without a value also reads as `None`. -/
def attrGet (attrs : List (String × Option String)) (k : String) : Option String :=
  match attrs.reverse.find? (fun p => p.1 == k) with
  | some p => p.2
  | none => none

/-- `(attr_map.get("class") or "").split()`. -/
def attrClasses (attrs : List (String × Option String)) : List String :=
  (pyWordsL ((attrGet attrs "class").getD "").data).map (fun w => (⟨w⟩ : String))

/-! ## Block extractor (`BlockParser`) -/

namespace BlockParser

/-- Mutable fields of `BlockParser`. -/
structure State where
  blocks : List TextBlock
  activeTag : Option String
  activeId : Option String
  buf : List String
deriving DecidableEq

/-- Fresh parser state. -/
def init : State := ⟨[], none, none, []⟩

/-- The capturable element kinds. -/
def capturable (tag : String) : Bool :=
  tag == "p" || tag == "li" || tag == "h1" || tag == "h2" || tag == "h3" || tag == "h4"

/-- `tag.startswith("h") and tag[1:].isdigit()` gives `int(tag[1:])`. -/
def levelOf (tag : String) : Option Nat :=
  match tag.data with
  | 'h' :: rest =>
    if rest ≠ [] ∧ rest.all Char.isDigit then
      some (rest.foldl (fun a c => a * 10 + (c.toNat - 48)) 0)
    else none
  | _ => none

/-- `BlockParser.handle_starttag`. -/
def handle_starttag (s : State) (tag : String) (attrs : List (String × Option String)) : State :=
  if tag == "img" then
    let src := pyStrip ((attrGet attrs "src").getD "")
    if src ≠ "" then {s with blocks := s.blocks ++ [{tag := "img", text := src}]} else s
  else if s.activeTag.isSome then s
  else if capturable tag then
    {s with activeTag := some tag, activeId := attrGet attrs "id", buf := []}
  else s

/-- `BlockParser.handle_data`. -/
def handle_data (s : State) (d : String) : State :=
  match s.activeTag with
  | none => s
  | some _ => {s with buf := s.buf ++ [d]}

/-- `BlockParser.handle_endtag`. -/
def handle_endtag (s : State) (tag : String) : State :=
  match s.activeTag with
  | none => s
  | some a =>
    if tag ≠ a then s
    else
      let text := normBuf s.buf
      let withB :=
        if text ≠ "" then
          {s with blocks := s.blocks ++
            [{tag := tag, text := text, level := levelOf tag, elementId := s.activeId}]}
        else s
      {withB with activeTag := none, activeId := none, buf := []}

/-- Dispatch of one event. -/
def step (s : State) (e : Ev) : State :=
  match e with
  | .startE t a => handle_starttag s t a
  | .dataE d => handle_data s d
  | .endE t => handle_endtag s t

end BlockParser

/-- `_parse_blocks`: run the block parser over a document's events. -/
def parse_blocks (evs : List Ev) : List TextBlock :=
  (evs.foldl BlockParser.step BlockParser.init).blocks

/-! ## Section segmenter (`_extract_section`) -/

/-- A section: heading text/identifier plus the following body blocks. -/
structure Sect where
  title : String
  titleId : Option String
  blocks : List TextBlock
deriving DecidableEq

/-- `block.is_heading and block.level is not None and block.level <= 3`. -/
def isTopHeading (b : TextBlock) : Bool :=
  match b.level with
  | some l => decide (l ≤ 3)
  | none => false

/-- The segmentation fold, carrying the open section. -/
def sectionsAux (cur : Option Sect) : List TextBlock → List Sect
  | [] =>
    match cur with
    | some c => [c]
    | none => []
  | b :: rest =>
    if isTopHeading b then
      match cur with
      | some c => c :: sectionsAux (some ⟨b.text, b.elementId, []⟩) rest
      | none => sectionsAux (some ⟨b.text, b.elementId, []⟩) rest
    else
      match cur with
      | some c => sectionsAux (some {c with blocks := c.blocks ++ [b]}) rest
      | none => sectionsAux none rest

/-- `_extract_section`. -/
def extract_section (bl : List TextBlock) : List Sect := sectionsAux none bl

/-! ## Generic recipe classifier (`_collect_recipe_from_section`) -/

/-- The active accumulation bucket. -/
inductive Bucket where
  | ing
  | meth
deriving DecidableEq

/-- Loop state of `_collect_recipe_from_section`. -/
structure CollectSt where
  ingredients : List String
  method : List String
  bucket : Option Bucket
  imageHref : Option String
deriving DecidableEq

/-- `not src or src.startswith("data:") or "://" in src`. -/
def srcBad (src : String) : Bool :=
  src == "" || pyStarts "data:" src || pyIn "://" src

/-- One iteration of the block loop in `_collect_recipe_from_section`. -/
def collectStep (href : String) (st : CollectSt) (b : TextBlock) : CollectSt :=
  if b.tag == "img" ∧ pyFalsyStr st.imageHref then
    let src := pyStrip b.text
    if srcBad src then st
    else {st with imageHref := some (genericResolve href src)}
  else if b.level.isSome then
    {st with bucket :=
      if INGREDIENTS_RE b.text then some .ing
      else if METHOD_RE b.text then some .meth
      else none}
  else
    match st.bucket with
    | some .ing => {st with ingredients := st.ingredients ++ [b.text]}
    | some .meth => {st with method := st.method ++ [b.text]}
    | none => st

/-- `_collect_recipe_from_section`. -/
def collect_recipe_from_section (sect : Sect) (href : String) : Option Recipe :=
  let title := pyStrip sect.title
  if title == "" || title_ignored title then none
  else
    let st := sect.blocks.foldl (collectStep href) ⟨[], [], none, none⟩
    if st.method = [] then none
    else
      some {
        title := title,
        ingredientsText := optStr (pyStrip (joinNL st.ingredients)),
        methodText := pyStrip (joinNL st.method),
        sourceType := "epub",
        sourceKey := sourceKeyOf href sect.titleId,
        imageHref := st.imageHref,
        locationType := "href",
        locationValue := sourceKeyOf href sect.titleId }

/-! ## Extraction loops

A book is modelled per the input contract: the ordered list of
`(document location, parsed event stream)` pairs. -/

/-- A spine document: location plus its dispatched HTML events. -/
abbrev Doc := String × List Ev

/-- `if max_recipes and len(recipes) >= max_recipes`. -/
def capHit (m : Option Nat) (len : Nat) : Bool :=
  match m with
  | none => false
  | some n => (n != 0) && decide (n ≤ len)

/-- The per-document section loop of `extract_epub_recipes`; the Bool flags
the early `return`. -/
def sectLoop (href : String) (m : Option Nat) : List Recipe → List Sect → List Recipe × Bool
  | acc, [] => (acc, false)
  | acc, s :: rest =>
    match collect_recipe_from_section s href with
    | none => sectLoop href m acc rest
    | some r =>
      let acc2 := acc ++ [r]
      if capHit m acc2.length then (acc2, true) else sectLoop href m acc2 rest

/-- The document loop of `extract_epub_recipes` (generic branch). -/
def docLoop (m : Option Nat) : List Recipe → List Doc → List Recipe
  | acc, [] => acc
  | acc, d :: rest =>
    match sectLoop d.1 m acc (extract_section (parse_blocks d.2)) with
    | (acc2, true) => acc2
    | (acc2, false) => docLoop m acc2 rest

/-- `extract_epub_recipes` when the book is not the known publisher
template: every spine document flows through the generic pipeline. -/
def extract_epub_recipes_generic (book : List Doc) (m : Option Nat) : List Recipe :=
  docLoop m [] book

/-- `_is_crumbs_doilies`: two-substring match on the lowercased book
file name. -/
def is_crumbs_doilies (name : String) : Bool :=
  litSub "crumbs".data (name.data.map lc) && litSub "doilies".data (name.data.map lc)

/-! ## Specialised template parser (`CrumbsParser`) -/

namespace CrumbsParser

/-- The capture modes (values of the `_capture` field). -/
inductive Cap where
  | recipeTitle
  | ingredientHeader
  | ingredientItem
  | methodHeading
  | methodP
deriving DecidableEq

/-- The in-flight recipe accumulator (the `_current` dict). -/
structure CurRec where
  title : String
  rid : Option String
  ingredients : List String
  method : List String
  imageHref : Option String
deriving DecidableEq

/-- Mutable fields of `CrumbsParser`. -/
structure State where
  href : String
  recipes : List Recipe
  current : Option CurRec
  capture : Option Cap
  buf : List String
  ingredientSection : Option String
  inTip : Bool
  pendingRecipeId : Option String
deriving DecidableEq

/-- Fresh parser state for one document. -/
def init (href : String) : State := ⟨href, [], none, none, [], none, false, none⟩

/-- `CrumbsParser._finish_recipe`. -/
def finish_recipe (s : State) : State :=
  match s.current with
  | none => s
  | some c =>
    let title := pyStrip c.title
    if title == "" || c.method = [] then {s with current := none}
    else
      {s with current := none, recipes := s.recipes ++ [{
        title := title,
        ingredientsText := optStr (pyStrip (joinNL c.ingredients)),
        methodText := pyStrip (joinNL c.method),
        sourceType := "epub:crumbs_doilies",
        sourceKey := sourceKeyOf s.href c.rid,
        imageHref := c.imageHref,
        locationType := "href",
        locationValue := sourceKeyOf s.href c.rid }]}

/-- `CrumbsParser._start_recipe`. -/
def start_recipe (s : State) (title : String) (rid : Option String) : State :=
  let s1 := if s.current.isSome then finish_recipe s else s
  {s1 with current := some ⟨title, rid, [], [], none⟩,
           ingredientSection := none, inTip := false}

/-- `CrumbsParser._push_text`.  Note the guard: with no in-flight recipe the
method returns before reaching any capture branch, including the
`recipe_title` branch that would call `_start_recipe`. -/
def push_text (s : State) (t : String) : State :=
  match s.current with
  | none => s
  | some c =>
    match s.capture with
    | some .ingredientHeader =>
      let h := pyStrip t
      if h ≠ "" then {s with ingredientSection := some h} else s
    | some .ingredientItem =>
      let line := pyStrip t
      if line = "" then s
      else
        let ings := c.ingredients
        let needSec : Bool :=
          match s.ingredientSection with
          | some sec => (sec != "") && (ings.isEmpty || ings.getLast? != some sec)
          | none => false
        let ings2 :=
          match s.ingredientSection, needSec with
          | some sec, true => ings ++ [sec, line]
          | _, _ => ings ++ [line]
        {s with current := some {c with ingredients := ings2}}
    | some .methodHeading =>
      let h := pyStrip t
      if h ≠ "" ∧ s.inTip = false then
        {s with current := some {c with method := c.method ++ [h]}}
      else s
    | some .methodP =>
      let line := pyStrip t
      if line ≠ "" ∧ s.inTip = false then
        {s with current := some {c with method := c.method ++ [line]}}
      else s
    | some .recipeTitle =>
      let title := pyStrip t
      if title ≠ "" then start_recipe s title s.pendingRecipeId else s
    | none => s

/-- `CrumbsParser.handle_starttag`. -/
def handle_starttag (s : State) (tag : String) (attrs : List (String × Option String)) : State :=
  let classes := attrClasses attrs
  if tag == "h2" ∧ classes.contains "rec_head" then
    {s with capture := some .recipeTitle, buf := [], pendingRecipeId := attrGet attrs "id"}
  else if tag == "h5" ∧ classes.contains "ingredient_header" then
    {s with capture := some .ingredientHeader, buf := []}
  else if tag == "li" ∧ classes.contains "ingred" then
    {s with capture := some .ingredientItem, buf := []}
  else if tag == "h4" ∧ classes.contains "rec_subhead" then
    {s with inTip := false, capture := some .methodHeading, buf := []}
  else if tag == "h4" ∧ classes.contains "tip_head" then
    {s with capture := some .methodHeading, buf := [], inTip := true}
  else if tag == "p" ∧ (classes.contains "method" || classes.contains "method2" ||
        classes.contains "rec_intro" || classes.contains "no_indent") then
    {s with capture := some .methodP, buf := []}
  else if tag == "img" then
    match s.current with
    | some c =>
      if pyFalsyStr c.imageHref then
        let src := pyStrip ((attrGet attrs "src").getD "")
        if src ≠ "" ∧ pyStarts "data:" src = false ∧ pyIn "://" src = false then
          {s with current := some {c with imageHref := some (crumbsResolve s.href src)}}
        else s
      else s
    | none => s
  else s

/-- `CrumbsParser.handle_data`. -/
def handle_data (s : State) (d : String) : State :=
  match s.capture with
  | none => s
  | some _ => {s with buf := s.buf ++ [d]}

/-- `CrumbsParser.handle_endtag`: flushes on ANY end tag while a capture
mode is active, regardless of the tag name. -/
def handle_endtag (s : State) (tagName : String) : State :=
  match s.capture with
  | none => s
  | some _ =>
    let text := normBuf s.buf
    let s1 := if text ≠ "" then push_text s text else s
    {s1 with capture := none, buf := []}

/-- Dispatch of one event. -/
def step (s : State) (e : Ev) : State :=
  match e with
  | .startE t a => handle_starttag s t a
  | .dataE d => handle_data s d
  | .endE t => handle_endtag s t

/-- Run the parser over one document's events. -/
def run (href : String) (evs : List Ev) : State :=
  evs.foldl step (init href)

end CrumbsParser

/-- Per-document result of the specialised pipeline: feed the document, then
the mandatory end-of-document `_finish_recipe` flush. -/
def crumbsDocRecipes (href : String) (evs : List Ev) : List Recipe :=
  (CrumbsParser.finish_recipe (CrumbsParser.run href evs)).recipes

/-- `"chapter" in href and "_01" in href`: document selection of the
specialised pipeline. -/
def crumbsDocSelected (href : String) : Bool :=
  pyIn "chapter" href && pyIn "_01" href

/-- The per-document recipe loop of `extract_crumbs_doilies_recipes`, with
the title filter and the max-count early `return` flag. -/
def recLoop (m : Option Nat) : List Recipe → List Recipe → List Recipe × Bool
  | acc, [] => (acc, false)
  | acc, r :: rest =>
    if title_ignored r.title then recLoop m acc rest
    else
      let acc2 := acc ++ [r]
      if capHit m acc2.length then (acc2, true) else recLoop m acc2 rest

/-- The document loop of `extract_crumbs_doilies_recipes`. -/
def crumbsDocLoop (m : Option Nat) : List Recipe → List Doc → List Recipe
  | acc, [] => acc
  | acc, d :: rest =>
    if crumbsDocSelected d.1 = false then crumbsDocLoop m acc rest
    else
      match recLoop m acc (crumbsDocRecipes d.1 d.2) with
      | (acc2, true) => acc2
      | (acc2, false) => crumbsDocLoop m acc2 rest

/-- `extract_crumbs_doilies_recipes`. -/
def extract_crumbs_doilies_recipes (book : List Doc) (m : Option Nat) : List Recipe :=
  crumbsDocLoop m [] book

/-- `extract_epub_recipes`: pipeline dispatch on the book's file name. -/
def extract_epub_recipes (name : String) (book : List Doc) (m : Option Nat) : List Recipe :=
  if is_crumbs_doilies name then extract_crumbs_doilies_recipes book m
  else extract_epub_recipes_generic book m

/-! ## Spec-side comparison definitions

These definitions follow the wording of the specification / claims and are
compared against the source-derived definitions above. -/

/-- The claim's bucketing test, worded as plain case-insensitive substring
containment (the source instead uses the word-boundary regexes). -/
def specContainsCI (pat s : String) : Bool := ciSub pat.data s.data

/-- The image resolver as the spec words it (§4.6): parent directory of the
document location, join, collapse `.`/`..`, no leading slash. -/
def specResolveImage (href src : String) : String :=
  if pyStarts "/" src then lstripSlashes src
  else lstripSlashes (normpath (posixJoin (dirname href) src))

/-- The claim's reading of C8: the first image block whose source is
non-empty, not a data URI and not an absolute URL. -/
def firstQualifyingImgSrc (blocks : List TextBlock) : Option String :=
  ((blocks.filter (fun b => b.tag == "img" && !(srcBad (pyStrip b.text)))).head?).map
    (fun b => pyStrip b.text)

/-- The amended reading of C8: the first image block whose source qualifies
AND resolves to a non-empty reference. -/
def firstGoodImage (href : String) : List TextBlock → Option String
  | [] => none
  | b :: rest =>
    if b.tag == "img" && !(srcBad (pyStrip b.text)) &&
        genericResolve href (pyStrip b.text) != "" then
      some (genericResolve href (pyStrip b.text))
    else firstGoodImage href rest

/-- The claim's reading of C9's flush text: plain concatenation of the
buffered fragments, then whitespace-normalised. -/
def specConcatNorm (buf : List String) : String :=
  ⟨pyStripL (spJoin (pyWordsL (String.join buf).data))⟩

/-- The claim's transition function for the tip-suppression flag (C6): set
by a tip-heading marker, cleared by a non-tip method subheading, otherwise
unchanged. -/
def specTipNext (e : Ev) (b : Bool) : Bool :=
  match e with
  | .startE t attrs =>
    if t == "h4" ∧ (attrClasses attrs).contains "rec_subhead" then false
    else if t == "h4" ∧ (attrClasses attrs).contains "tip_head" then true
    else b
  | _ => b

/-- The keyword set exactly as the claim C5 lists it. -/
def claimIgnoreKeywords : List String :=
  ["acknowledgment", "acknowledgments", "equipment", "conversion", "glossary",
   "index", "about the author", "contents", "introduction", "chapter",
   "bibliography", "notes", "preface"]

/-- A segment usable verbatim in both path models: non-empty, not a dot
segment, and slash-free. -/
def cleanSeg (g : List Char) : Prop :=
  g ≠ [] ∧ g ≠ ['.'] ∧ g ≠ ['.', '.'] ∧ ∀ c ∈ g, c ≠ '/'

instance (g : List Char) : Decidable (cleanSeg g) := by
  unfold cleanSeg
  infer_instance

/-! ## Concrete fixtures used by counterexamples and witnesses -/

/-- C1 counterexample: a heading whose text contains "ingredient" only as a
mid-word substring. -/
def sectC1 : Sect :=
  ⟨"Cake", none,
   [⟨"h4", "Subingredients", some 4, none⟩, ⟨"p", "2 apples", none, none⟩,
    ⟨"h4", "Method", some 4, none⟩, ⟨"p", "Bake.", none, none⟩]⟩

/-- C2 counterexample: an image source that climbs a directory. -/
def sectC2 : Sect :=
  ⟨"Cake", none,
   [⟨"img", "../pie.jpg", none, none⟩,
    ⟨"h4", "Method", some 4, none⟩, ⟨"p", "Bake.", none, none⟩]⟩

/-- C3 failing input: a title marker followed by method content, in an
eligible chapter document. -/
def evsC3 : List Ev :=
  [.startE "h2" [("class", some "rec_head"), ("id", some "r1")],
   .dataE "Apple Pie", .endE "h2",
   .startE "p" [("class", some "method")], .dataE "Mix.", .endE "p"]

/-- C8 counterexample: a qualifying all-slash image source followed by an
ordinary one. -/
def sectC8 : Sect :=
  ⟨"Cake", none,
   [⟨"img", "/", none, none⟩, ⟨"img", "b.jpg", none, none⟩,
    ⟨"h4", "Method", some 4, none⟩, ⟨"p", "Bake.", none, none⟩]⟩

/-- C9 counterexample: two data fragments inside one paragraph. -/
def evsC9 : List Ev := [.startE "p" [], .dataE "foo", .dataE "bar", .endE "p"]

/-- A two-recipe document for the C7 witness. -/
def evsC7 : List Ev :=
  [.startE "h2" [("id", some "r1")], .dataE "Apple Pie", .endE "h2",
   .startE "h4" [], .dataE "Method", .endE "h4",
   .startE "p" [], .dataE "Peel apples.", .endE "p",
   .startE "h2" [], .dataE "Berry Tart", .endE "h2",
   .startE "h4" [], .dataE "Method", .endE "h4",
   .startE "p" [], .dataE "Chill.", .endE "p"]

/-- A one-document book for the C7 witness. -/
def bookC7 : List Doc := [("ch1.xhtml", evsC7)]

/-- A one-recipe document for the C4 witness. -/
def evsC4 : List Ev :=
  [.startE "h2" [], .dataE "Apple Pie", .endE "h2",
   .startE "h4" [], .dataE "Method", .endE "h4",
   .startE "p" [], .dataE "Bake.", .endE "p"]

/-- A one-document book for the C4 witness. -/
def bookC4 : List Doc := [("ch1.xhtml", evsC4)]

/-- A section with no method content for the C4 witness. -/
def sectC4 : Sect := ⟨"Apple Pie", none, [⟨"p", "Just text.", none, none⟩]⟩

/-- The record `bookC4` produces, for the C4 witness. -/
def recC4 : Recipe :=
  ⟨"Apple Pie", none, "Bake.", "epub", "ch1.xhtml", none, "href", "ch1.xhtml"⟩

/-- A filtered-title section for the C5 witness. -/
def sectC5 : Sect :=
  ⟨"Introduction to Baking", none,
   [⟨"h4", "Method", some 4, none⟩, ⟨"p", "Read on.", none, none⟩]⟩

/-- A suppressed-capture state for the C6 witness. -/
def stC6 : CrumbsParser.State :=
  ⟨"doc.xhtml", [], some ⟨"T", none, [], ["keep"], none⟩,
   some .methodP, ["tip text"], none, true, none⟩

/-- A mid-capture state for the C10 witness: buffered method text with an
in-flight recipe. -/
def stC10 : CrumbsParser.State :=
  ⟨"doc.xhtml", [], some ⟨"T", none, [], [], none⟩,
   some .methodP, ["step one"], none, false, none⟩

/-! ## Helper lemmas: the specialised parser can never start a recipe

`_start_recipe` is reachable only through the `recipe_title` branch of
`_push_text`, which sits after the `if not self._current: return` guard, so
from the initial state `current` stays `None` and `recipes` stays empty. -/

theorem push_text_of_current_none (s : CrumbsParser.State) (t : String)
    (h : s.current = none) : CrumbsParser.push_text s t = s := by
  unfold CrumbsParser.push_text
  rw [h]

theorem handle_starttag_current_recipes (s : CrumbsParser.State) (tag : String)
    (attrs : List (String × Option String)) (h : s.current = none) :
    (CrumbsParser.handle_starttag s tag attrs).current = none ∧
    (CrumbsParser.handle_starttag s tag attrs).recipes = s.recipes := by
  simp only [CrumbsParser.handle_starttag]
  repeat' split
  all_goals simp_all

theorem handle_data_current_recipes (s : CrumbsParser.State) (d : String) :
    (CrumbsParser.handle_data s d).current = s.current ∧
    (CrumbsParser.handle_data s d).recipes = s.recipes := by
  unfold CrumbsParser.handle_data
  cases s.capture <;> simp

theorem handle_endtag_current_recipes (s : CrumbsParser.State) (tag : String)
    (h : s.current = none) :
    (CrumbsParser.handle_endtag s tag).current = none ∧
    (CrumbsParser.handle_endtag s tag).recipes = s.recipes := by
  unfold CrumbsParser.handle_endtag
  cases hc : s.capture with
  | none => simp [h]
  | some c =>
    simp only
    split_ifs with ht
    · rw [push_text_of_current_none s _ h]
      simp [h]
    · simp [h]

theorem run_inert (href : String) (evs : List Ev) :
    (CrumbsParser.run href evs).current = none ∧
    (CrumbsParser.run href evs).recipes = [] := by
  suffices h : ∀ (s : CrumbsParser.State), s.current = none →
      (evs.foldl CrumbsParser.step s).current = none ∧
      (evs.foldl CrumbsParser.step s).recipes = s.recipes by
    exact h (CrumbsParser.init href) rfl
  induction evs with
  | nil => intro s hs; exact ⟨hs, rfl⟩
  | cons e rest ih =>
    intro s hs
    have hstep : (CrumbsParser.step s e).current = none ∧
        (CrumbsParser.step s e).recipes = s.recipes := by
      cases e with
      | startE t a => exact handle_starttag_current_recipes s t a hs
      | dataE d =>
        have h := handle_data_current_recipes s d
        exact ⟨h.1.trans hs, h.2⟩
      | endE t => exact handle_endtag_current_recipes s t hs
    have := ih (CrumbsParser.step s e) hstep.1
    exact ⟨this.1, this.2.trans hstep.2⟩

theorem finish_recipe_of_current_none (s : CrumbsParser.State)
    (h : s.current = none) : CrumbsParser.finish_recipe s = s := by
  unfold CrumbsParser.finish_recipe
  rw [h]

theorem crumbsDocRecipes_nil (href : String) (evs : List Ev) :
    crumbsDocRecipes href evs = [] := by
  unfold crumbsDocRecipes
  rw [finish_recipe_of_current_none _ (run_inert href evs).1]
  exact (run_inert href evs).2

/-! ## Claim C3 -/

/-- C3 (code_bug): the claim — and the spec — say a title marker finalizes
any in-flight recipe and begins a new one, and that the end of the document
finalizes the last one.  In the code `_push_text` returns before its
`recipe_title` branch whenever `self._current` is falsy, and `_start_recipe`
has no other caller, so no in-flight recipe can ever be created: for every
document the specialised parser ends with `current = None` and emits no
records at all. -/
theorem C3_code_evaluation :
    (∀ (href : String) (evs : List Ev),
        crumbsDocRecipes href evs = [] ∧ (CrumbsParser.run href evs).current = none) ∧
    crumbsDocRecipes "chapter_01.xhtml" evsC3 = [] :=
  ⟨fun href evs => ⟨crumbsDocRecipes_nil href evs, (run_inert href evs).1⟩,
   crumbsDocRecipes_nil "chapter_01.xhtml" evsC3⟩

/-! ## Claim C10 -/

/-- C10 (confirmed): in the specialised parser an end tag of ANY element
name — not only the one that opened the capture — flushes the buffered text
and leaves capture mode; once capture mode is off, further character data is
discarded.  The concrete conjunct shows a buffered method line being
recorded by a mismatched inner end tag (`"em"`), after which the remainder
of the outer element's text would be dropped. -/
theorem C10_endtag_flush :
    (∀ (s : CrumbsParser.State) (tag : String),
        (CrumbsParser.handle_endtag s tag).capture = none) ∧
    (∀ (s : CrumbsParser.State) (d : String), s.capture = none →
        CrumbsParser.handle_data s d = s) ∧
    ((CrumbsParser.handle_endtag stC10 "em").current =
        some ⟨"T", none, [], ["step one"], none⟩) := by
  refine ⟨?_, ?_, by decide⟩
  · intro s tag
    unfold CrumbsParser.handle_endtag
    cases hc : s.capture with
    | none => exact hc
    | some c => simp
  · intro s d h
    unfold CrumbsParser.handle_data
    rw [h]

/-- C10 witness: the general conjuncts applied at concrete states. -/
theorem C10_witness :
    (CrumbsParser.handle_endtag stC10 "em").capture = none ∧
    CrumbsParser.handle_data (CrumbsParser.init "d") "x" = CrumbsParser.init "d" :=
  ⟨C10_endtag_flush.1 stC10 "em", C10_endtag_flush.2.1 (CrumbsParser.init "d") "x" rfl⟩

/-! ## Claim C6 -/

theorem starttag_tip_of_current_none (s : CrumbsParser.State) (t : String)
    (attrs : List (String × Option String)) (h : s.current = none) :
    (CrumbsParser.handle_starttag s t attrs).inTip =
      specTipNext (.startE t attrs) s.inTip := by
  simp only [CrumbsParser.handle_starttag, specTipNext, h]
  repeat' split
  all_goals simp_all

theorem step_tip_of_current_none (s : CrumbsParser.State) (e : Ev)
    (h : s.current = none) :
    (CrumbsParser.step s e).inTip = specTipNext e s.inTip := by
  cases e with
  | startE t attrs => exact starttag_tip_of_current_none s t attrs h
  | dataE d =>
    simp only [CrumbsParser.step, CrumbsParser.handle_data, specTipNext]
    cases s.capture <;> simp
  | endE t =>
    simp only [CrumbsParser.step, CrumbsParser.handle_endtag, specTipNext]
    cases hc : s.capture with
    | none => simp
    | some c =>
      simp only
      split_ifs with ht
      · rw [push_text_of_current_none s _ h]
      · simp

/-- C6 (confirmed): a tip-heading marker sets the suppression flag, a
non-tip method subheading clears it, no other event from a reachable state
changes it (`specTipNext` is the claim's transition function), and an end
tag flushing `method_heading`/`method` text while the flag is set leaves
both the emitted records and the in-flight method list unchanged — such
text is discarded and never reaches any `method_text`. -/
theorem C6_tip_suppression :
    (∀ (s : CrumbsParser.State) (attrs : List (String × Option String)),
        (attrClasses attrs).contains "rec_subhead" = true →
        (CrumbsParser.handle_starttag s "h4" attrs).inTip = false) ∧
    (∀ (s : CrumbsParser.State) (attrs : List (String × Option String)),
        (attrClasses attrs).contains "rec_subhead" = false →
        (attrClasses attrs).contains "tip_head" = true →
        (CrumbsParser.handle_starttag s "h4" attrs).inTip = true) ∧
    (∀ (href : String) (evs : List Ev) (e : Ev),
        (CrumbsParser.step (CrumbsParser.run href evs) e).inTip =
          specTipNext e (CrumbsParser.run href evs).inTip) ∧
    (∀ (s : CrumbsParser.State) (tag : String), s.inTip = true →
        (s.capture = some .methodHeading ∨ s.capture = some .methodP) →
        (CrumbsParser.handle_endtag s tag).recipes = s.recipes ∧
        (CrumbsParser.handle_endtag s tag).current = s.current) := by
  refine ⟨?_, ?_, ?_, ?_⟩
  · intro s attrs h
    simp only [CrumbsParser.handle_starttag]
    repeat' split
    all_goals simp_all
  · intro s attrs h1 h2
    simp only [CrumbsParser.handle_starttag]
    repeat' split
    all_goals simp_all
  · intro href evs e
    exact step_tip_of_current_none (CrumbsParser.run href evs) e (run_inert href evs).1
  · intro s tag htip hcap
    unfold CrumbsParser.handle_endtag
    cases hc : s.capture with
    | none => exact ⟨rfl, rfl⟩
    | some c =>
      simp only
      have hpush : ∀ t, CrumbsParser.push_text s t = s := by
        intro t
        unfold CrumbsParser.push_text
        cases hcur : s.current with
        | none => rfl
        | some cr =>
          rcases hcap with h | h <;> rw [h] <;> simp [htip]
      split_ifs with ht
      · rw [hpush]
        exact ⟨rfl, rfl⟩
      · exact ⟨rfl, rfl⟩

/-- C6 witness: the clearing rule and the suppression rule applied at
concrete inputs. -/
theorem C6_witness :
    (CrumbsParser.handle_starttag stC6 "h4" [("class", some "rec_subhead")]).inTip = false ∧
    (CrumbsParser.handle_endtag stC6 "p").current = stC6.current ∧
    (CrumbsParser.handle_endtag stC6 "p").recipes = stC6.recipes :=
  ⟨C6_tip_suppression.1 stC6 [("class", some "rec_subhead")] (by decide),
   (C6_tip_suppression.2.2.2 stC6 "p" (by decide) (Or.inr rfl)).2,
   (C6_tip_suppression.2.2.2 stC6 "p" (by decide) (Or.inr rfl)).1⟩

/-! ## Claim C1 -/

/-- C1 (corrected), counterexample: the claim says the bucket becomes
`ingredients` exactly when the heading text contains "ingredient" as a
case-insensitive substring.  "Subingredients" contains that substring, yet
`INGREDIENTS_RE` (= `\bingredient`) does not match it — the word boundary
fails — so the classifier discards the following body text and the emitted
record has no ingredients at all. -/
theorem C1_counterexample :
    specContainsCI "ingredient" "Subingredients" = true ∧
    INGREDIENTS_RE "Subingredients" = false ∧
    (collect_recipe_from_section sectC1 "ch1.xhtml").map Recipe.ingredientsText =
      some none ∧
    (collect_recipe_from_section sectC1 "ch1.xhtml").map Recipe.methodText =
      some "Bake." := by
  decide

/-- C1 (corrected), amended: a heading block sets the bucket to
`ingredients` exactly when `INGREDIENTS_RE` matches (i.e. "ingredient"
preceded by a word boundary), else to `method` exactly when `METHOD_RE`
matches (one of the four keywords as a whole word), else to `none`; heading
blocks never touch the accumulated text, and a non-heading block processed
while the bucket is `none` leaves both accumulators unchanged, so its text
reaches neither `ingredients_text` nor `method_text`. -/
theorem C1_amended_bucket_rule :
    (∀ (href : String) (st : CollectSt) (b : TextBlock), b.tag ≠ "img" →
        b.level.isSome = true →
        (collectStep href st b).bucket =
          (if INGREDIENTS_RE b.text then some Bucket.ing
           else if METHOD_RE b.text then some Bucket.meth else none) ∧
        (collectStep href st b).ingredients = st.ingredients ∧
        (collectStep href st b).method = st.method) ∧
    (∀ (href : String) (st : CollectSt) (b : TextBlock), b.level = none →
        st.bucket = none →
        (collectStep href st b).ingredients = st.ingredients ∧
        (collectStep href st b).method = st.method) := by
  constructor
  · intro href st b htag hlev
    have h1 : ¬(b.tag == "img" ∧ pyFalsyStr st.imageHref) := by
      intro h
      exact htag (by simpa using h.1)
    unfold collectStep
    rw [if_neg h1, if_pos hlev]
    exact ⟨rfl, rfl, rfl⟩
  · intro href st b hlev hbucket
    simp only [collectStep]
    by_cases h1 : (b.tag == "img" ∧ pyFalsyStr st.imageHref)
    · rw [if_pos h1]
      by_cases h2 : srcBad (pyStrip b.text) = true
      · rw [if_pos h2]
        exact ⟨rfl, rfl⟩
      · rw [if_neg h2]
        exact ⟨rfl, rfl⟩
    · rw [if_neg h1]
      have hl : ¬ (b.level.isSome = true) := by simp [hlev]
      rw [if_neg hl, hbucket]
      exact ⟨rfl, rfl⟩

/-- C1 witness: the amended rule applied at a matching heading and at a
stray non-heading block with no active bucket. -/
theorem C1_witness :
    (collectStep "d" ⟨[], [], none, none⟩ ⟨"h4", "Ingredients", some 4, none⟩).bucket =
      (if INGREDIENTS_RE "Ingredients" then some Bucket.ing
       else if METHOD_RE "Ingredients" then some Bucket.meth else none) ∧
    (collectStep "d" ⟨[], [], none, none⟩ ⟨"p", "stray", none, none⟩).method = [] :=
  ⟨(C1_amended_bucket_rule.1 "d" ⟨[], [], none, none⟩ ⟨"h4", "Ingredients", some 4, none⟩
      (by decide) (by decide)).1,
   (C1_amended_bucket_rule.2 "d" ⟨[], [], none, none⟩ ⟨"p", "stray", none, none⟩
      rfl rfl).2⟩

/-! ## Whitespace-normalisation lemmas -/

theorem wordsAux_append_sp (b : List Char) :
    ∀ (a cur : List Char), wordsAux cur (a ++ ' ' :: b) = wordsAux cur a ++ wordsAux [] b := by
  intro a
  induction a with
  | nil =>
    intro cur
    show wordsAux cur (' ' :: b) = wordsAux cur [] ++ wordsAux [] b
    by_cases h : cur.isEmpty <;> simp [wordsAux, isWs, h]
  | cons c a ih =>
    intro cur
    show wordsAux cur (c :: (a ++ ' ' :: b)) = wordsAux cur (c :: a) ++ wordsAux [] b
    by_cases h : isWs c
    · by_cases hcur : cur.isEmpty <;> simp [wordsAux, h, hcur, ih]
    · simp [wordsAux, h, ih]

theorem pyWordsL_spJoin :
    ∀ (parts : List (List Char)), pyWordsL (spJoin parts) = parts.flatMap pyWordsL := by
  intro parts
  induction parts with
  | nil => rfl
  | cons w ws ih =>
    cases ws with
    | nil => simp [spJoin, pyWordsL]
    | cons v vs =>
      show pyWordsL (w ++ ' ' :: spJoin (v :: vs)) = _
      unfold pyWordsL at ih ⊢
      rw [wordsAux_append_sp, ih]
      simp [List.flatMap_cons]

theorem wordsAux_ok :
    ∀ (l cur : List Char), (∀ c ∈ cur, isWs c = false) →
      ∀ w ∈ wordsAux cur l, w ≠ [] ∧ ∀ c ∈ w, isWs c = false := by
  intro l
  induction l with
  | nil =>
    intro cur hcur w hw
    by_cases h : cur.isEmpty
    · simp [wordsAux, h] at hw
    · simp only [wordsAux, h, if_neg, Bool.false_eq_true, if_false, List.mem_singleton] at hw
      subst hw
      refine ⟨by simpa [List.isEmpty_iff] using h, ?_⟩
      intro c hc
      exact hcur c (List.mem_reverse.mp hc)
  | cons c cs ih =>
    intro cur hcur w hw
    by_cases h : isWs c
    · by_cases hcur2 : cur.isEmpty
      · rw [wordsAux, if_pos h, if_pos hcur2] at hw
        exact ih [] (by simp) w hw
      · rw [wordsAux, if_pos h, if_neg hcur2] at hw
        rcases List.mem_cons.mp hw with h1 | h1
        · subst h1
          refine ⟨by simpa [List.isEmpty_iff] using hcur2, ?_⟩
          intro x hx
          exact hcur x (List.mem_reverse.mp hx)
        · exact ih [] (by simp) w h1
    · rw [wordsAux, if_neg h] at hw
      refine ih (c :: cur) ?_ w hw
      intro x hx
      rcases List.mem_cons.mp hx with h1 | h1
      · subst h1
        simpa using h
      · exact hcur x h1

theorem pyWordsL_ok (l : List Char) :
    ∀ w ∈ pyWordsL l, w ≠ [] ∧ ∀ c ∈ w, isWs c = false :=
  wordsAux_ok l [] (by simp)

theorem mem_of_getLast?_some {α : Type} {l : List α} {a : α}
    (h : l.getLast? = some a) : a ∈ l := by
  have hmem : a ∈ l.getLast? := Option.mem_def.mpr h
  rcases List.mem_getLast?_eq_getLast hmem with ⟨hne, heq⟩
  rw [heq]
  exact List.getLast_mem hne

theorem spJoin_ok :
    ∀ (ws : List (List Char)), (∀ w ∈ ws, w ≠ [] ∧ ∀ c ∈ w, isWs c = false) →
      (∀ c, (spJoin ws).head? = some c → isWs c = false) ∧
      (∀ c, (spJoin ws).getLast? = some c → isWs c = false) := by
  intro ws
  induction ws with
  | nil => exact fun _ => ⟨fun c hc => by simp [spJoin] at hc, fun c hc => by simp [spJoin] at hc⟩
  | cons w vs ih =>
    intro h
    have hw := h w (by simp)
    cases vs with
    | nil =>
      refine ⟨fun c hc => ?_, fun c hc => ?_⟩
      · exact hw.2 c (List.mem_of_mem_head? (by simpa [spJoin] using hc))
      · exact hw.2 c (mem_of_getLast?_some (by simpa [spJoin] using hc))
    | cons v vs2 =>
      have hrest := ih (fun u hu => h u (by simp [hu]))
      refine ⟨fun c hc => ?_, fun c hc => ?_⟩
      · rw [show spJoin (w :: v :: vs2) = w ++ ' ' :: spJoin (v :: vs2) from rfl,
          List.head?_append_of_ne_nil _ hw.1] at hc
        exact hw.2 c (List.mem_of_mem_head? hc)
      · rw [show spJoin (w :: v :: vs2) = w ++ ' ' :: spJoin (v :: vs2) from rfl,
          List.getLast?_append_cons] at hc
        have hvne : v ≠ [] := (h v (by simp)).1
        have hres : spJoin (v :: vs2) ≠ [] := by
          cases vs2 with
          | nil => simpa [spJoin] using hvne
          | cons x xs =>
            show v ++ ' ' :: spJoin (x :: xs) ≠ []
            simp
        rw [show (' ' :: spJoin (v :: vs2) : List Char) = [' '] ++ spJoin (v :: vs2) from rfl,
          List.getLast?_append_of_ne_nil _ hres] at hc
        exact hrest.2 c hc

theorem head?_dropWhile (p : Char → Bool) (m : List Char) (c : Char)
    (h : (m.dropWhile p).head? = some c) : p c = false := by
  induction m with
  | nil => simp [List.dropWhile] at h
  | cons a t ih =>
    by_cases ha : p a
    · rw [List.dropWhile_cons_of_pos ha] at h
      exact ih h
    · rw [List.dropWhile_cons_of_neg ha] at h
      cases h
      simpa using ha

theorem getLast?_dropWhile (p : Char → Bool) (m : List Char)
    (h : m.dropWhile p ≠ []) : (m.dropWhile p).getLast? = m.getLast? := by
  induction m with
  | nil => rfl
  | cons a t ih =>
    by_cases ha : p a
    · rw [List.dropWhile_cons_of_pos ha] at h ⊢
      have ht : t ≠ [] := by
        intro heq
        rw [heq] at h
        exact h rfl
      rw [ih h, show a :: t = [a] ++ t from rfl, List.getLast?_append_of_ne_nil _ ht]
    · rw [List.dropWhile_cons_of_neg ha]

theorem pyStripL_eq_self (l : List Char)
    (hh : ∀ c, l.head? = some c → isWs c = false)
    (hl : ∀ c, l.getLast? = some c → isWs c = false) :
    pyStripL l = l := by
  unfold pyStripL
  have h1 : l.dropWhile isWs = l := by
    cases l with
    | nil => rfl
    | cons c cs =>
      rw [List.dropWhile_cons_of_neg]
      simp [hh c rfl]
  rw [h1]
  have h2 : l.reverse.dropWhile isWs = l.reverse := by
    cases hr : l.reverse with
    | nil => rfl
    | cons c cs =>
      have hc : l.getLast? = some c := by
        rw [← List.head?_reverse, hr]
        rfl
      rw [List.dropWhile_cons_of_neg]
      simp [hl c hc]
  rw [h2, List.reverse_reverse]

theorem pyStripL_ok (l : List Char) :
    (∀ c, (pyStripL l).head? = some c → isWs c = false) ∧
    (∀ c, (pyStripL l).getLast? = some c → isWs c = false) := by
  constructor
  · intro c hc
    rw [pyStripL, List.head?_reverse] at hc
    have hne : (l.dropWhile isWs).reverse.dropWhile isWs ≠ [] := by
      intro h
      rw [h] at hc
      simp at hc
    rw [getLast?_dropWhile _ _ hne, List.getLast?_reverse] at hc
    exact head?_dropWhile _ _ _ hc
  · intro c hc
    rw [pyStripL, List.getLast?_reverse] at hc
    exact head?_dropWhile _ _ _ hc

theorem pyStripL_idem (l : List Char) : pyStripL (pyStripL l) = pyStripL l :=
  pyStripL_eq_self _ (pyStripL_ok l).1 (pyStripL_ok l).2

theorem pyStripL_eq_nil_iff (l : List Char) :
    pyStripL l = [] ↔ ∀ c ∈ l, isWs c = true := by
  constructor
  · intro h c hc
    rw [pyStripL] at h
    have h2 : (l.dropWhile isWs).reverse.dropWhile isWs = [] := by
      simpa using h
    have h3 : ∀ x ∈ (l.dropWhile isWs).reverse, isWs x = true :=
      List.dropWhile_eq_nil_iff.mp h2
    have h4 : ∀ x ∈ l.dropWhile isWs, isWs x = true := by
      intro x hx
      exact h3 x (List.mem_reverse.mpr hx)
    rcases List.mem_append.mp
        (by rw [List.takeWhile_append_dropWhile]; exact hc :
          c ∈ l.takeWhile isWs ++ l.dropWhile isWs) with h5 | h5
    · exact List.mem_takeWhile_imp h5
    · exact h4 c h5
  · intro h
    have : l.dropWhile isWs = [] := List.dropWhile_eq_nil_iff.mpr h
    rw [pyStripL, this]
    rfl

theorem mem_of_mem_pyStripL {c : Char} {l : List Char} (h : c ∈ pyStripL l) : c ∈ l := by
  rw [pyStripL, List.mem_reverse] at h
  have h1 : c ∈ (l.dropWhile isWs).reverse := (List.dropWhile_sublist isWs).mem h
  rw [List.mem_reverse] at h1
  exact (List.dropWhile_sublist isWs).mem h1

theorem flat_words_ok (parts : List (List Char)) :
    ∀ w ∈ parts.flatMap pyWordsL, w ≠ [] ∧ ∀ c ∈ w, isWs c = false := by
  intro w hw
  rcases List.mem_flatMap.mp hw with ⟨piece, hp, hwp⟩
  exact pyWordsL_ok piece w hwp

theorem normBuf_eq_flat (buf : List String) :
    normBuf buf = ⟨spJoin ((buf.map String.data).flatMap pyWordsL)⟩ := by
  unfold normBuf
  rw [pyWordsL_spJoin]
  exact congrArg String.mk
    (pyStripL_eq_self _ (spJoin_ok _ (flat_words_ok _)).1 (spJoin_ok _ (flat_words_ok _)).2)

theorem pyStrip_normBuf (buf : List String) : pyStrip (normBuf buf) = normBuf buf :=
  congrArg String.mk (pyStripL_idem _)

theorem str_eq_empty_iff (s : String) : s = "" ↔ s.data = [] := by
  constructor
  · intro h
    rw [h]
  · intro h
    cases s with
    | mk l =>
      have hl : l = [] := h
      subst hl
      rfl

theorem pyStrip_ne_empty_iff (s : String) :
    pyStrip s ≠ "" ↔ ∃ c ∈ s.data, isWs c = false := by
  rw [ne_eq, str_eq_empty_iff]
  show ¬(pyStripL s.data = []) ↔ _
  rw [pyStripL_eq_nil_iff]
  simp

theorem mem_joinNL {x : String} {lines : List String} (hx : x ∈ lines) {c : Char}
    (hc : c ∈ x.data) : c ∈ (joinNL lines).data := by
  induction lines with
  | nil => cases hx
  | cons y ys ih =>
    rcases List.mem_cons.mp hx with h | h
    · subst h
      cases ys with
      | nil => exact hc
      | cons z zs =>
        show c ∈ (x ++ "\n" ++ joinNL (z :: zs)).data
        rw [String.data_append, String.data_append]
        exact List.mem_append_left _ (List.mem_append_left _ hc)
    · cases ys with
      | nil => cases h
      | cons z zs =>
        show c ∈ (y ++ "\n" ++ joinNL (z :: zs)).data
        rw [String.data_append]
        exact List.mem_append_right _ (ih h)

theorem joinNL_strip_ne {lines : List String} {x : String} (hx : x ∈ lines)
    (hne : pyStrip x ≠ "") : pyStrip (joinNL lines) ≠ "" := by
  rcases (pyStrip_ne_empty_iff x).mp hne with ⟨c, hc, hcw⟩
  exact (pyStrip_ne_empty_iff _).mpr ⟨c, mem_joinNL hx hc, hcw⟩

/-! ## Claim C9 -/

/-- C9 (corrected), counterexample: the claim says the emitted text is the
concatenation of the text fragments, whitespace-normalised.  The code joins
the buffered fragments with `" ".join`, so two fragments abutting without
whitespace (split by inline markup) come out separated by a space:
`<p>foo<b>bar</b></p>` yields "foo bar", not "foobar". -/
theorem C9_counterexample :
    parse_blocks evsC9 = [⟨"p", "foo bar", none, none⟩] ∧
    specConcatNorm ["foo", "bar"] = "foobar" ∧
    ("foo bar" : String) ≠ "foobar" := by
  decide

/-- C9 (corrected), amended: while a capturable element is active the start
tag of another capturable element is ignored; the flushed text is the
fragments JOINED WITH SINGLE SPACES and whitespace-normalised (equivalently,
the concatenation of the words of each fragment, space-separated); the end
tag of the active element emits exactly one block when that text is
non-empty and none otherwise. -/
theorem C9_amended_block_extractor :
    (∀ (s : BlockParser.State) (tag : String) (attrs : List (String × Option String)),
        s.activeTag.isSome = true → BlockParser.capturable tag = true →
        BlockParser.handle_starttag s tag attrs = s) ∧
    (∀ buf : List String,
        normBuf buf = ⟨spJoin ((buf.map String.data).flatMap pyWordsL)⟩) ∧
    (∀ (s : BlockParser.State) (a : String), s.activeTag = some a →
        (BlockParser.handle_endtag s a).blocks =
          s.blocks ++
            (if normBuf s.buf = "" then []
             else [⟨a, normBuf s.buf, BlockParser.levelOf a, s.activeId⟩])) := by
  refine ⟨?_, normBuf_eq_flat, ?_⟩
  · intro s tag attrs hact hcap
    have himg : ¬(tag == "img") := by
      intro h
      rw [show tag = "img" from by simpa using h] at hcap
      simp [BlockParser.capturable] at hcap
    unfold BlockParser.handle_starttag
    rw [if_neg himg, if_pos hact]
  · intro s a hact
    unfold BlockParser.handle_endtag
    rw [hact]
    simp only
    rw [if_neg (by simp : ¬ a ≠ a)]
    by_cases ht : normBuf s.buf = "" <;> simp [ht]

/-- C9 witness: the amended conjuncts applied at concrete inputs. -/
theorem C9_witness :
    BlockParser.handle_starttag ⟨[], some "p", none, ["x"]⟩ "li" [] =
      ⟨[], some "p", none, ["x"]⟩ ∧
    (BlockParser.handle_endtag ⟨[], some "p", none, ["foo", "bar"]⟩ "p").blocks =
      [] ++ (if normBuf ["foo", "bar"] = "" then []
             else [⟨"p", normBuf ["foo", "bar"], BlockParser.levelOf "p", none⟩]) :=
  ⟨C9_amended_block_extractor.1 ⟨[], some "p", none, ["x"]⟩ "li" [] rfl (by decide),
   C9_amended_block_extractor.2.2 ⟨[], some "p", none, ["foo", "bar"]⟩ "p" rfl⟩

/-! ## Block and loop invariants used by C4 and C5 -/

theorem pyStrip_idem (s : String) : pyStrip (pyStrip s) = pyStrip s :=
  congrArg String.mk (pyStripL_idem _)

/-- Every block the block extractor emits has text that survives `strip`. -/
theorem step_blocks_strip_ne (s : BlockParser.State) (e : Ev)
    (hs : ∀ b ∈ s.blocks, pyStrip b.text ≠ "") :
    ∀ b ∈ (BlockParser.step s e).blocks, pyStrip b.text ≠ "" := by
  cases e with
  | startE t attrs =>
    simp only [BlockParser.step, BlockParser.handle_starttag]
    split_ifs with h1 h2 h3 h4
    · intro b hb
      rcases List.mem_append.mp hb with h | h
      · exact hs b h
      · have hb2 : b = ({tag := "img", text := pyStrip ((attrGet attrs "src").getD "")} :
            TextBlock) := by simpa using h
        rw [hb2]
        show pyStrip (pyStrip _) ≠ ""
        rw [pyStrip_idem]
        exact h2
    all_goals exact hs
  | dataE d =>
    simp only [BlockParser.step, BlockParser.handle_data]
    cases s.activeTag <;> simpa using hs
  | endE t =>
    simp only [BlockParser.step, BlockParser.handle_endtag]
    cases hact : s.activeTag with
    | none => exact hs
    | some a =>
      simp only
      split_ifs with h1 h2
      · exact hs
      · intro b hb
        rcases (by simpa using hb :
            b ∈ s.blocks ∨ b = (⟨t, normBuf s.buf, BlockParser.levelOf t, s.activeId⟩ :
              TextBlock)) with h | h
        · exact hs b h
        · rw [h]
          show pyStrip (normBuf s.buf) ≠ ""
          rw [pyStrip_normBuf]
          exact h2
      · intro b hb
        exact hs b (by simpa using hb)

theorem parse_blocks_strip_ne (evs : List Ev) :
    ∀ b ∈ parse_blocks evs, pyStrip b.text ≠ "" := by
  suffices h : ∀ (l : List Ev) (s : BlockParser.State),
      (∀ b ∈ s.blocks, pyStrip b.text ≠ "") →
      ∀ b ∈ (l.foldl BlockParser.step s).blocks, pyStrip b.text ≠ "" by
    exact h evs BlockParser.init (by simp [BlockParser.init])
  intro l
  induction l with
  | nil => exact fun s h => h
  | cons e rest ih =>
    intro s hs
    exact ih (BlockParser.step s e) (step_blocks_strip_ne s e hs)

/-- Unfolding equations for the segmenter. -/
theorem sectionsAux_cons (cur : Option Sect) (x : TextBlock) (rest : List TextBlock) :
    sectionsAux cur (x :: rest) =
      if isTopHeading x then
        match cur with
        | some c => c :: sectionsAux (some ⟨x.text, x.elementId, []⟩) rest
        | none => sectionsAux (some ⟨x.text, x.elementId, []⟩) rest
      else
        match cur with
        | some c => sectionsAux (some {c with blocks := c.blocks ++ [x]}) rest
        | none => sectionsAux none rest := by
  cases cur <;> rfl

/-- Every block inside a segmented section came from the input stream. -/
theorem sectionsAux_blocks_mem :
    ∀ (bl : List TextBlock) (cur : Option Sect) (s : Sect) (b : TextBlock),
      s ∈ sectionsAux cur bl → b ∈ s.blocks →
      b ∈ bl ∨ ∃ c, cur = some c ∧ b ∈ c.blocks := by
  intro bl
  induction bl with
  | nil =>
    intro cur s b hs hb
    cases cur with
    | none => cases hs
    | some c =>
      have hsc : s = c := by
        have h2 : s ∈ [c] := hs
        simpa using h2
      exact Or.inr ⟨c, rfl, hsc ▸ hb⟩
  | cons x rest ih =>
    intro cur s b hs hb
    rw [sectionsAux_cons] at hs
    by_cases hx : isTopHeading x = true
    · rw [if_pos hx] at hs
      cases cur with
      | none =>
        rcases ih _ s b hs hb with h | ⟨c2, hc2, hbc2⟩
        · exact Or.inl (List.mem_cons_of_mem _ h)
        · cases hc2
          cases hbc2
      | some c =>
        rcases List.mem_cons.mp hs with h | h
        · exact Or.inr ⟨c, rfl, h ▸ hb⟩
        · rcases ih _ s b h hb with h2 | ⟨c2, hc2, hbc2⟩
          · exact Or.inl (List.mem_cons_of_mem _ h2)
          · cases hc2
            cases hbc2
    · rw [if_neg hx] at hs
      cases cur with
      | none =>
        rcases ih _ s b hs hb with h | ⟨c2, hc2, hbc2⟩
        · exact Or.inl (List.mem_cons_of_mem _ h)
        · cases hc2
      | some c =>
        rcases ih _ s b hs hb with h | ⟨c2, hc2, hbc2⟩
        · exact Or.inl (List.mem_cons_of_mem _ h)
        · cases hc2
          rcases List.mem_append.mp hbc2 with h2 | h2
          · exact Or.inr ⟨c, rfl, h2⟩
          · have hbx : b = x := by simpa using h2
            rw [hbx]
            exact Or.inl (by simp)

theorem extract_section_blocks_mem {bl : List TextBlock} {s : Sect} {b : TextBlock}
    (hs : s ∈ extract_section bl) (hb : b ∈ s.blocks) : b ∈ bl := by
  rcases sectionsAux_blocks_mem bl none s b hs hb with h | ⟨c, hc, _⟩
  · exact h
  · cases hc

/-- One classifier step either leaves the method list alone or appends the
block's text. -/
theorem collectStep_method (href : String) (st : CollectSt) (b : TextBlock) :
    (collectStep href st b).method = st.method ∨
    (collectStep href st b).method = st.method ++ [b.text] := by
  simp only [collectStep]
  repeat' split
  all_goals simp

theorem collect_fold_method (href : String) (P : String → Prop) :
    ∀ (blocks : List TextBlock) (st : CollectSt),
      (∀ t ∈ st.method, P t) → (∀ b ∈ blocks, P b.text) →
      ∀ t ∈ (blocks.foldl (collectStep href) st).method, P t := by
  intro blocks
  induction blocks with
  | nil => exact fun st h _ => h
  | cons b rest ih =>
    intro st hst hbl
    refine ih (collectStep href st b) ?_ (fun b2 hb2 => hbl b2 (List.mem_cons_of_mem _ hb2))
    intro t ht
    rcases collectStep_method href st b with h | h <;> rw [h] at ht
    · exact hst t ht
    · rcases List.mem_append.mp ht with h2 | h2
      · exact hst t h2
      · have : t = b.text := by simpa using h2
        rw [this]
        exact hbl b (by simp)

/-- Facts recoverable from a successful classification. -/
theorem collect_some_facts {sect : Sect} {href : String} {r : Recipe}
    (h : collect_recipe_from_section sect href = some r) :
    r.methodText =
      pyStrip (joinNL (sect.blocks.foldl (collectStep href) ⟨[], [], none, none⟩).method) ∧
    (sect.blocks.foldl (collectStep href) ⟨[], [], none, none⟩).method ≠ [] ∧
    r.title = pyStrip sect.title ∧ title_ignored r.title = false := by
  simp only [collect_recipe_from_section] at h
  split_ifs at h with h1 h2
  have hr : r = {
      title := pyStrip sect.title,
      ingredientsText := optStr (pyStrip (joinNL
        (sect.blocks.foldl (collectStep href) ⟨[], [], none, none⟩).ingredients)),
      methodText := pyStrip (joinNL
        (sect.blocks.foldl (collectStep href) ⟨[], [], none, none⟩).method),
      sourceType := "epub",
      sourceKey := sourceKeyOf href sect.titleId,
      imageHref := (sect.blocks.foldl (collectStep href) ⟨[], [], none, none⟩).imageHref,
      locationType := "href",
      locationValue := sourceKeyOf href sect.titleId } := by
    exact (Option.some.injEq _ _).mp h.symm
  subst hr
  refine ⟨rfl, h2, rfl, ?_⟩
  show title_ignored (pyStrip sect.title) = false
  exact (by simpa using h1 :
    ¬ pyStrip sect.title = "" ∧ title_ignored (pyStrip sect.title) = false).2

/-- Membership in the generic section loop. -/
theorem sectLoop_mem :
    ∀ (sects : List Sect) (href : String) (m : Option Nat) (acc : List Recipe) (r : Recipe),
      r ∈ (sectLoop href m acc sects).1 →
      r ∈ acc ∨ ∃ s ∈ sects, collect_recipe_from_section s href = some r := by
  intro sects
  induction sects with
  | nil => exact fun href m acc r h => Or.inl h
  | cons s rest ih =>
    intro href m acc r h
    rw [sectLoop] at h
    cases hcs : collect_recipe_from_section s href with
    | none =>
      rw [hcs] at h
      rcases ih href m acc r h with h2 | ⟨s2, hs2, hc2⟩
      · exact Or.inl h2
      · exact Or.inr ⟨s2, List.mem_cons_of_mem _ hs2, hc2⟩
    | some r2 =>
      rw [hcs] at h
      simp only at h
      split_ifs at h with hcap
      · rcases List.mem_append.mp h with h2 | h2
        · exact Or.inl h2
        · have : r = r2 := by simpa using h2
          subst this
          exact Or.inr ⟨s, by simp, hcs⟩
      · rcases ih href m (acc ++ [r2]) r h with h2 | ⟨s2, hs2, hc2⟩
        · rcases List.mem_append.mp h2 with h3 | h3
          · exact Or.inl h3
          · have : r = r2 := by simpa using h3
            subst this
            exact Or.inr ⟨s, by simp, hcs⟩
        · exact Or.inr ⟨s2, List.mem_cons_of_mem _ hs2, hc2⟩

/-- Membership in the generic document loop. -/
theorem docLoop_mem :
    ∀ (book : List Doc) (m : Option Nat) (acc : List Recipe) (r : Recipe),
      r ∈ docLoop m acc book →
      r ∈ acc ∨ ∃ d ∈ book, ∃ s ∈ extract_section (parse_blocks d.2),
        collect_recipe_from_section s d.1 = some r := by
  intro book
  induction book with
  | nil => exact fun m acc r h => Or.inl h
  | cons d rest ih =>
    intro m acc r h
    rw [docLoop] at h
    rcases hsl : sectLoop d.1 m acc (extract_section (parse_blocks d.2)) with ⟨acc2, flag⟩
    rw [hsl] at h
    have hacc2 : r ∈ acc2 →
        r ∈ acc ∨ ∃ dd ∈ d :: rest, ∃ s ∈ extract_section (parse_blocks dd.2),
          collect_recipe_from_section s dd.1 = some r := by
      intro h2
      have := sectLoop_mem (extract_section (parse_blocks d.2)) d.1 m acc r
        (by rw [hsl]; exact h2)
      rcases this with h3 | ⟨s, hs, hc⟩
      · exact Or.inl h3
      · exact Or.inr ⟨d, by simp, s, hs, hc⟩
    cases flag with
    | true => exact hacc2 h
    | false =>
      rcases ih m acc2 r h with h2 | ⟨d2, hd2, s2, hs2, hc2⟩
      · exact hacc2 h2
      · exact Or.inr ⟨d2, List.mem_cons_of_mem _ hd2, s2, hs2, hc2⟩

/-- The specialised pipeline returns nothing regardless of the cap (a
consequence of the `_push_text` guard). -/
theorem crumbsDocLoop_acc :
    ∀ (docs : List Doc) (m : Option Nat) (acc : List Recipe),
      crumbsDocLoop m acc docs = acc := by
  intro docs
  induction docs with
  | nil => exact fun m acc => rfl
  | cons d rest ih =>
    intro m acc
    rw [crumbsDocLoop]
    split_ifs with hsel
    · exact ih m acc
    · rw [crumbsDocRecipes_nil, recLoop]
      exact ih m acc

theorem extract_crumbs_nil (book : List Doc) (m : Option Nat) :
    extract_crumbs_doilies_recipes book m = [] :=
  crumbsDocLoop_acc book m []

/-! ## Claim C4 -/

/-- C4 (confirmed): every record either pipeline outputs has a
`method_text` that is non-empty after trimming; a section whose method
bucket is empty after bucketing, or an in-flight recipe with an empty
method list, yields no record.  (For the specialised pipeline the first
statement also follows from the stronger fact that it emits nothing at all,
see C3; the finalisation guard is proved separately and non-vacuously.) -/
theorem C4_method_nonempty :
    (∀ (book : List Doc) (m : Option Nat) (r : Recipe),
        r ∈ extract_epub_recipes_generic book m → pyStrip r.methodText ≠ "") ∧
    (∀ (book : List Doc) (m : Option Nat) (r : Recipe),
        r ∈ extract_crumbs_doilies_recipes book m → pyStrip r.methodText ≠ "") ∧
    (∀ (sect : Sect) (href : String),
        (sect.blocks.foldl (collectStep href) ⟨[], [], none, none⟩).method = [] →
        collect_recipe_from_section sect href = none) ∧
    (∀ (s : CrumbsParser.State) (c : CrumbsParser.CurRec), s.current = some c →
        c.method = [] → (CrumbsParser.finish_recipe s).recipes = s.recipes) := by
  refine ⟨?_, ?_, ?_, ?_⟩
  · intro book m r hr
    rcases docLoop_mem book m [] r hr with h | ⟨d, hd, s, hsect, hc⟩
    · cases h
    · obtain ⟨hmt, hmne, -, -⟩ := collect_some_facts hc
      have hlines : ∀ t ∈ (s.blocks.foldl (collectStep d.1) ⟨[], [], none, none⟩).method,
          pyStrip t ≠ "" := by
        refine collect_fold_method d.1 (fun t => pyStrip t ≠ "") s.blocks
          ⟨[], [], none, none⟩ (by simp) ?_
        intro b hb
        exact parse_blocks_strip_ne d.2 b (extract_section_blocks_mem hsect hb)
      rw [hmt, pyStrip_idem]
      cases hm : (s.blocks.foldl (collectStep d.1) ⟨[], [], none, none⟩).method with
      | nil => exact absurd hm hmne
      | cons x xs =>
        exact joinNL_strip_ne (hm ▸ List.mem_cons_self x xs) (hlines x (by rw [hm]; simp))
  · intro book m r hr
    rw [extract_crumbs_nil] at hr
    cases hr
  · intro sect href hm
    simp only [collect_recipe_from_section]
    split_ifs with h1 h2
    · rfl
    · rfl
  · intro s c hc hm
    unfold CrumbsParser.finish_recipe
    rw [hc]
    simp only
    rw [if_pos (by simp [hm])]

/-- C4 witness: the invariant applied to a concrete book's record and the
no-method guard applied to a concrete section. -/
theorem C4_witness :
    pyStrip recC4.methodText ≠ "" ∧
    collect_recipe_from_section sectC4 "d.xhtml" = none :=
  ⟨C4_method_nonempty.1 bookC4 none recC4 (by decide),
   C4_method_nonempty.2.2.1 sectC4 "d.xhtml" (by decide)⟩

/-! ## Case-folding and strip-preservation lemmas (C5) -/

theorem lc_ws_fix (c : Char) (h : isWs c = true) : lc c = c := by
  rcases (by simpa [isWs] using h :
      ((((c = ' ' ∨ c = '\t') ∨ c = '\n') ∨ c = '\x0d') ∨ c = '\x0b') ∨ c = '\x0c') with
    ((((h | h) | h) | h) | h) | h <;> subst h <;> decide

theorem lc_nonWs (a : Char) (h : isWs a = false) : isWs (lc a) = false := by
  show isWs (if a.toNat ≥ 65 ∧ a.toNat ≤ 90 then Char.ofNat (a.toNat + 32) else a) = false
  split_ifs with hr
  · obtain ⟨h1, h2⟩ := hr
    set n := a.toNat with hn
    interval_cases n <;> decide
  · exact h

theorem lc_ne_ws {a d : Char} (ha : isWs a = false) (hd : isWs d = true) : lc a ≠ lc d := by
  intro heq
  rw [lc_ws_fix d hd] at heq
  have h2 := lc_nonWs a ha
  rw [heq] at h2
  rw [h2] at hd
  cases hd

theorem ciHead_ws_head {a : Char} (pat : List Char) (ha : isWs a = false)
    {c : Char} (hc : isWs c = true) (cs : List Char) :
    ciHead (a :: pat) (c :: cs) = false := by
  show ((lc a == lc c) && ciHead pat cs) = false
  simp [lc_ne_ws ha hc]

theorem ciSub_dropWhile_ws {a : Char} {pat : List Char} (ha : isWs a = false) :
    ∀ (s : List Char), ciSub (a :: pat) s = true →
      ciSub (a :: pat) (s.dropWhile isWs) = true := by
  intro s
  induction s with
  | nil => intro h; simpa using h
  | cons c cs ih =>
    intro h
    by_cases hc : isWs c
    · rw [List.dropWhile_cons_of_pos hc]
      apply ih
      have h2 : ciHead (a :: pat) (c :: cs) = true ∨ ciSub (a :: pat) cs = true := by
        simpa [ciSub] using h
      rcases h2 with h2 | h2
      · rw [ciHead_ws_head pat ha hc cs] at h2
        cases h2
      · exact h2
    · rw [List.dropWhile_cons_of_neg hc]
      exact h

theorem ciHead_drop_last :
    ∀ (pat u : List Char) (c : Char), isWs c = true →
      (∀ x, pat.getLast? = some x → isWs x = false) →
      ciHead pat (u ++ [c]) = true → ciHead pat u = true := by
  intro pat
  induction pat with
  | nil => intro u c _ _ _; rfl
  | cons a pat ih =>
    intro u c hc hlast h
    cases u with
    | nil =>
      exfalso
      have h1 : (lc a == lc c) = true ∧ ciHead pat [] = true := by
        simpa [ciHead] using h
      have hpat : pat = [] := by
        cases pat with
        | nil => rfl
        | cons p ps => simp [ciHead] at h1
      subst hpat
      have ha : isWs a = false := hlast a rfl
      exact lc_ne_ws ha hc (by simpa using h1.1)
    | cons x u2 =>
      have h1 : (lc a == lc x) = true ∧ ciHead pat (u2 ++ [c]) = true := by
        simpa [ciHead] using h
      have hlast2 : ∀ y, pat.getLast? = some y → isWs y = false := by
        intro y hy
        apply hlast
        cases pat with
        | nil => cases hy
        | cons p ps => rw [List.getLast?_cons_cons]; exact hy
      have h2 := ih u2 c hc hlast2 h1.2
      show ((lc a == lc x) && ciHead pat u2) = true
      simp [h1.1, h2]

theorem ciSub_drop_last (pat : List Char)
    (hlast : ∀ x, pat.getLast? = some x → isWs x = false) (c : Char) (hc : isWs c = true) :
    ∀ (u : List Char), ciSub pat (u ++ [c]) = true → ciSub pat u = true := by
  intro u
  induction u with
  | nil =>
    intro h
    have h2 : ciHead pat [c] = true ∨ ciHead pat [] = true := by
      simpa [ciSub] using h
    show ciHead pat [] = true
    rcases h2 with h2 | h2
    · exact ciHead_drop_last pat [] c hc hlast h2
    · exact h2
  | cons x u2 ih =>
    intro h
    have h2 : ciHead pat (x :: (u2 ++ [c])) = true ∨ ciSub pat (u2 ++ [c]) = true := by
      simpa [ciSub] using h
    rcases h2 with h2 | h2
    · have h3 := ciHead_drop_last pat (x :: u2) c hc hlast (by simpa using h2)
      simp [ciSub, h3]
    · simp [ciSub, ih h2]

theorem ciSub_drop_ws_suffix (pat : List Char)
    (hlast : ∀ x, pat.getLast? = some x → isWs x = false) :
    ∀ (w : List Char), (∀ c ∈ w, isWs c = true) →
      ∀ u, ciSub pat (u ++ w) = true → ciSub pat u = true := by
  intro w
  induction w using List.reverseRecOn with
  | nil => intro _ u h; simpa using h
  | append_singleton w0 c ih =>
    intro hws u h
    have hc : isWs c = true := hws c (by simp)
    have h2 : ciSub pat ((u ++ w0) ++ [c]) = true := by
      rw [List.append_assoc]
      exact h
    exact ih (fun x hx => hws x (by simp [hx])) u (ciSub_drop_last pat hlast c hc (u ++ w0) h2)

theorem dropWhile_eq_pyStripL_append (l : List Char) :
    ∃ w, l.dropWhile isWs = pyStripL l ++ w ∧ ∀ c ∈ w, isWs c = true := by
  refine ⟨((l.dropWhile isWs).reverse.takeWhile isWs).reverse, ?_, ?_⟩
  · rw [pyStripL, ← List.reverse_append, List.takeWhile_append_dropWhile,
      List.reverse_reverse]
  · intro c hc
    exact List.mem_takeWhile_imp (List.mem_reverse.mp hc)

theorem ciSub_pyStrip {a : Char} {pat : List Char} (ha : isWs a = false)
    (hlast : ∀ x, (a :: pat).getLast? = some x → isWs x = false)
    (s : List Char) (h : ciSub (a :: pat) s = true) :
    ciSub (a :: pat) (pyStripL s) = true := by
  have h1 := ciSub_dropWhile_ws ha s h
  obtain ⟨w, hw, hws⟩ := dropWhile_eq_pyStripL_append s
  rw [hw] at h1
  exact ciSub_drop_ws_suffix (a :: pat) hlast w hws (pyStripL s) h1

theorem ciHead_of_append {a b : List Char} :
    ∀ {s}, ciHead (a ++ b) s = true → ciHead a s = true := by
  induction a with
  | nil => intro s _; rfl
  | cons x xs ih =>
    intro s h
    cases s with
    | nil => simp [ciHead] at h
    | cons y ys =>
      have h2 : (lc x == lc y) = true ∧ ciHead (xs ++ b) ys = true := by
        simpa [ciHead] using h
      show ((lc x == lc y) && ciHead xs ys) = true
      simp [h2.1, ih h2.2]

theorem ciSub_of_append {a b : List Char} :
    ∀ {s}, ciSub (a ++ b) s = true → ciSub a s = true := by
  intro s
  induction s with
  | nil =>
    intro h
    show ciHead a [] = true
    exact ciHead_of_append (by simpa [ciSub] using h)
  | cons c cs ih =>
    intro h
    have h2 : ciHead (a ++ b) (c :: cs) = true ∨ ciSub (a ++ b) cs = true := by
      simpa [ciSub] using h
    rcases h2 with h2 | h2
    · simp [ciSub, ciHead_of_append h2]
    · simp [ciSub, ih h2]

theorem last_nonws_of_eq {l : List Char} {d : Char} (hl : l.getLast? = some d)
    (hd : isWs d = false) : ∀ x, l.getLast? = some x → isWs x = false := by
  intro x hx
  rw [hl] at hx
  cases hx
  exact hd

/-! ## Claim C5 -/

theorem title_ignored_of_lit {lit : String} (hmem : lit ∈ ignoreLits) {t : String}
    (h : ciSub lit.data t.data = true) : title_ignored t = true := by
  unfold title_ignored
  rw [List.any_eq_true]
  exact ⟨lit, hmem, h⟩

/-- Each keyword of the claim's list contains one of `IGNORE_TITLE_RE`'s
literal alternatives, so containing the keyword forces the regex to match. -/
theorem claim_kw_ignored : ∀ kw ∈ claimIgnoreKeywords, ∀ (t : String),
    ciSub kw.data t.data = true → title_ignored t = true := by
  intro kw hkw t h
  fin_cases hkw
  · exact title_ignored_of_lit (by decide)
      (ciSub_of_append (show ciSub ("acknowledg".data ++ "ment".data) t.data = true from h))
  · exact title_ignored_of_lit (by decide)
      (ciSub_of_append (show ciSub ("acknowledg".data ++ "ments".data) t.data = true from h))
  · exact title_ignored_of_lit (by decide) h
  · exact title_ignored_of_lit (by decide) h
  · exact title_ignored_of_lit (by decide) h
  · exact title_ignored_of_lit (by decide) h
  · exact title_ignored_of_lit (by decide) h
  · exact title_ignored_of_lit (by decide) h
  · exact title_ignored_of_lit (by decide) h
  · exact title_ignored_of_lit (by decide) h
  · exact title_ignored_of_lit (by decide) h
  · exact title_ignored_of_lit (by decide) h
  · exact title_ignored_of_lit (by decide) h

theorem collect_none_of_ignored (sect : Sect) (href : String)
    (hig : title_ignored (pyStrip sect.title) = true) :
    collect_recipe_from_section sect href = none := by
  simp only [collect_recipe_from_section]
  rw [if_pos (by simp [hig] :
    (pyStrip sect.title == "" || title_ignored (pyStrip sect.title)) = true)]

theorem recLoop_titles :
    ∀ (rs : List Recipe) (m : Option Nat) (acc : List Recipe),
      (∀ a ∈ acc, title_ignored a.title = false) →
      ∀ r ∈ (recLoop m acc rs).1, title_ignored r.title = false := by
  intro rs
  induction rs with
  | nil => exact fun m acc h r hr => h r hr
  | cons x rest ih =>
    intro m acc hacc r hr
    simp only [recLoop] at hr
    have hstep : ∀ a ∈ acc ++ [x], title_ignored x.title = false →
        title_ignored a.title = false := by
      intro a ha hx
      rcases List.mem_append.mp ha with h | h
      · exact hacc a h
      · rw [show a = x from by simpa using h]
        exact hx
    split_ifs at hr with hig hcap
    · exact ih m acc hacc r hr
    · exact hstep r hr (Bool.not_eq_true _ ▸ hig)
    · exact ih m (acc ++ [x]) (fun a ha => hstep a ha (Bool.not_eq_true _ ▸ hig)) r hr

/-! C5 main theorem -/

/-- C5 (confirmed): a section whose raw title contains any of the claim's
keywords (case-insensitively) yields no record from the generic classifier;
no record emitted by either pipeline carries such a title (the specialised
pipeline's loop filters ignored titles before appending). -/
theorem C5_title_filter :
    (∀ (sect : Sect) (href : String), ∀ kw ∈ claimIgnoreKeywords,
        ciSub kw.data sect.title.data = true →
        collect_recipe_from_section sect href = none) ∧
    (∀ (book : List Doc) (m : Option Nat) (r : Recipe),
        r ∈ extract_epub_recipes_generic book m → ∀ kw ∈ claimIgnoreKeywords,
        ciSub kw.data r.title.data = false) ∧
    (∀ (m : Option Nat) (acc : List Recipe) (docs : List Doc),
        (∀ a ∈ acc, title_ignored a.title = false) →
        ∀ r ∈ crumbsDocLoop m acc docs, title_ignored r.title = false) ∧
    (∀ (book : List Doc) (m : Option Nat) (r : Recipe),
        r ∈ extract_crumbs_doilies_recipes book m → ∀ kw ∈ claimIgnoreKeywords,
        ciSub kw.data r.title.data = false) := by
  have hloop : ∀ (docs : List Doc) (m : Option Nat) (acc : List Recipe),
      (∀ a ∈ acc, title_ignored a.title = false) →
      ∀ r ∈ crumbsDocLoop m acc docs, title_ignored r.title = false := by
    intro docs
    induction docs with
    | nil => exact fun m acc h r hr => h r hr
    | cons d rest ih =>
      intro m acc hacc r hr
      rw [crumbsDocLoop] at hr
      split_ifs at hr with hsel
      · exact ih m acc hacc r hr
      · rcases hrl : recLoop m acc (crumbsDocRecipes d.1 d.2) with ⟨acc2, flag⟩
        rw [hrl] at hr
        have hacc2 : ∀ a ∈ acc2, title_ignored a.title = false := by
          intro a ha
          exact recLoop_titles (crumbsDocRecipes d.1 d.2) m acc hacc a (by rw [hrl]; exact ha)
        cases flag with
        | true => exact hacc2 r hr
        | false => exact ih m acc2 hacc2 r hr
  refine ⟨?_, ?_, fun m acc docs h r hr => hloop docs m acc h r hr, ?_⟩
  · intro sect href kw hkw h
    have hstrip : ciSub kw.data (pyStripL sect.title.data) = true := by
      fin_cases hkw <;>
        exact ciSub_pyStrip (by decide) (last_nonws_of_eq rfl (by decide)) _ h
    exact collect_none_of_ignored sect href (claim_kw_ignored kw hkw (pyStrip sect.title) hstrip)
  · intro book m r hr kw hkw
    rcases docLoop_mem book m [] r hr with h | ⟨d, hd, s, hsect, hc⟩
    · cases h
    · obtain ⟨-, -, -, hig⟩ := collect_some_facts hc
      by_contra hcon
      rw [Bool.not_eq_false] at hcon
      have h2 := claim_kw_ignored kw hkw r.title hcon
      rw [hig] at h2
      cases h2
  · intro book m r hr kw hkw
    have hig := hloop book m [] (by simp) r hr
    by_contra hcon
    rw [Bool.not_eq_false] at hcon
    have h2 := claim_kw_ignored kw hkw r.title hcon
    rw [hig] at h2
    cases h2

/-- C5 witness: the filter applied to a concrete section titled
"Introduction to Baking" with well-formed method content. -/
theorem C5_witness :
    collect_recipe_from_section sectC5 "x.xhtml" = none :=
  (C5_title_filter.1 sectC5 "x.xhtml" "introduction" (by decide) (by decide))

/-! ## Claim C8 -/

theorem collectStep_image_keep (href : String) (st : CollectSt) (b : TextBlock)
    (h : pyFalsyStr st.imageHref = false) :
    (collectStep href st b).imageHref = st.imageHref := by
  simp only [collectStep]
  repeat' split
  all_goals simp_all

theorem fold_image_keep (href : String) :
    ∀ (blocks : List TextBlock) (st : CollectSt), pyFalsyStr st.imageHref = false →
      (blocks.foldl (collectStep href) st).imageHref = st.imageHref := by
  intro blocks
  induction blocks with
  | nil => exact fun st _ => rfl
  | cons b rest ih =>
    intro st h
    rw [List.foldl_cons]
    have hkeep := collectStep_image_keep href st b h
    rw [ih (collectStep href st b) (by rw [hkeep]; exact h), hkeep]

theorem collectStep_image_good (href : String) (st : CollectSt) (b : TextBlock)
    (hfal : pyFalsyStr st.imageHref = true) (himg : b.tag = "img")
    (hsrc : srcBad (pyStrip b.text) = false) :
    (collectStep href st b).imageHref = some (genericResolve href (pyStrip b.text)) := by
  simp only [collectStep]
  rw [if_pos ⟨by simp [himg], hfal⟩, if_neg (by simp [hsrc])]

theorem collectStep_image_notgood (href : String) (st : CollectSt) (b : TextBlock)
    (hfal : pyFalsyStr st.imageHref = true)
    (hng : (b.tag == "img" && !(srcBad (pyStrip b.text)) &&
        genericResolve href (pyStrip b.text) != "") = false) :
    pyFalsyStr (collectStep href st b).imageHref = true := by
  by_cases himg : b.tag = "img"
  · by_cases hsrc : srcBad (pyStrip b.text) = true
    · simp only [collectStep]
      rw [if_pos ⟨by simp [himg], hfal⟩, if_pos hsrc]
      exact hfal
    · have hres : genericResolve href (pyStrip b.text) = "" := by
        rcases Bool.and_eq_false_iff.mp hng with h | h
        · rcases Bool.and_eq_false_iff.mp h with h2 | h2
          · simp [himg] at h2
          · simp [hsrc] at h2
        · simpa using h
      rw [collectStep_image_good href st b hfal himg (Bool.not_eq_true _ ▸ hsrc), hres]
      rfl
  · simp only [collectStep]
    rw [if_neg (fun hcon => himg (by simpa using hcon.1))]
    split
    · exact hfal
    · repeat' split
      all_goals exact hfal

/-- The fold's final image slot: the first qualifying image with a non-empty
resolved reference wins; if there is none, the slot stays Python-falsy. -/
theorem fold_image_first_good (href : String) :
    ∀ (blocks : List TextBlock) (st : CollectSt), pyFalsyStr st.imageHref = true →
      (∀ v, firstGoodImage href blocks = some v →
        (blocks.foldl (collectStep href) st).imageHref = some v) ∧
      (firstGoodImage href blocks = none →
        pyFalsyStr (blocks.foldl (collectStep href) st).imageHref = true) := by
  intro blocks
  induction blocks with
  | nil =>
    intro st h
    refine ⟨fun v hv => ?_, fun _ => h⟩
    exact Option.noConfusion (show (none : Option String) = some v from hv)
  | cons b rest ih =>
    intro st hfal
    constructor
    · intro v hv
      rw [firstGoodImage] at hv
      split_ifs at hv with hgood
      · cases hv
        have himg : b.tag = "img" := by
          have := (Bool.and_eq_true_iff.mp (Bool.and_eq_true_iff.mp hgood).1).1
          simpa using this
        have hsrc : srcBad (pyStrip b.text) = false := by
          have := (Bool.and_eq_true_iff.mp (Bool.and_eq_true_iff.mp hgood).1).2
          simpa using this
        have hres : genericResolve href (pyStrip b.text) ≠ "" := by
          have := (Bool.and_eq_true_iff.mp hgood).2
          simpa using this
        have hstep := collectStep_image_good href st b hfal himg hsrc
        rw [List.foldl_cons,
          fold_image_keep href rest _ (by rw [hstep]; simpa [pyFalsyStr] using hres),
          hstep]
      · have hfal2 := collectStep_image_notgood href st b hfal (Bool.not_eq_true _ ▸ hgood)
        rw [List.foldl_cons]
        exact (ih _ hfal2).1 v hv
    · intro hv
      rw [firstGoodImage] at hv
      split_ifs at hv with hgood
      have hfal2 := collectStep_image_notgood href st b hfal (Bool.not_eq_true _ ▸ hgood)
      rw [List.foldl_cons]
      exact (ih _ hfal2).2 hv

theorem collect_some_image {sect : Sect} {href : String} {r : Recipe}
    (h : collect_recipe_from_section sect href = some r) :
    r.imageHref = (sect.blocks.foldl (collectStep href) ⟨[], [], none, none⟩).imageHref := by
  simp only [collect_recipe_from_section] at h
  split_ifs at h with h1 h2
  have hr : r = {
      title := pyStrip sect.title,
      ingredientsText := optStr (pyStrip (joinNL
        (sect.blocks.foldl (collectStep href) ⟨[], [], none, none⟩).ingredients)),
      methodText := pyStrip (joinNL
        (sect.blocks.foldl (collectStep href) ⟨[], [], none, none⟩).method),
      sourceType := "epub",
      sourceKey := sourceKeyOf href sect.titleId,
      imageHref := (sect.blocks.foldl (collectStep href) ⟨[], [], none, none⟩).imageHref,
      locationType := "href",
      locationValue := sourceKeyOf href sect.titleId } :=
    (Option.some.injEq _ _).mp h.symm
  rw [hr]

/-- C8 (corrected), counterexample: the source "/" qualifies under the
claim's conditions (non-empty, no "data:" prefix, no scheme marker) but
resolves to the empty string, which is Python-falsy, so the slot is re-opened
and the SECOND image populates `image_href` — contradicting "comes from the
first qualifying image / later images are ignored". -/
theorem C8_counterexample :
    firstQualifyingImgSrc sectC8.blocks = some "/" ∧
    genericResolve "d/x.xhtml" "/" = "" ∧
    (collect_recipe_from_section sectC8 "d/x.xhtml").map Recipe.imageHref =
      some (some "d/b.jpg") ∧
    (some ("d/b.jpg" : String)) ≠ some "" := by
  decide

/-- C8 (corrected), amended: `image_href` comes from the first image whose
source qualifies AND whose resolved reference is non-empty (an all-slash
source resolves to "" which is Python-falsy and leaves the slot open); if no
such image exists the record's slot stays falsy; once a non-empty reference
is stored no later block changes it; data-URI/absolute-URL sources never
populate the slot; the same guards hold for the specialised parser's image
handler. -/
theorem C8_amended_first_image :
    (∀ (sect : Sect) (href : String) (r : Recipe),
        collect_recipe_from_section sect href = some r →
        (∀ v, firstGoodImage href sect.blocks = some v → r.imageHref = some v) ∧
        (firstGoodImage href sect.blocks = none → pyFalsyStr r.imageHref = true)) ∧
    (∀ (href : String) (st : CollectSt) (b : TextBlock),
        pyFalsyStr st.imageHref = false →
        (collectStep href st b).imageHref = st.imageHref) ∧
    (∀ (href : String) (st : CollectSt) (b : TextBlock), b.tag = "img" →
        srcBad (pyStrip b.text) = true →
        (collectStep href st b).imageHref = st.imageHref) ∧
    (∀ (s : CrumbsParser.State) (c : CrumbsParser.CurRec)
        (attrs : List (String × Option String)), s.current = some c →
        pyFalsyStr c.imageHref = false →
        (CrumbsParser.handle_starttag s "img" attrs).current = s.current) ∧
    (∀ (s : CrumbsParser.State) (c : CrumbsParser.CurRec)
        (attrs : List (String × Option String)), s.current = some c →
        srcBad (pyStrip ((attrGet attrs "src").getD "")) = true →
        (CrumbsParser.handle_starttag s "img" attrs).current = s.current) := by
  refine ⟨?_, collectStep_image_keep, ?_, ?_, ?_⟩
  · intro sect href r hc
    have himg := collect_some_image hc
    have hfold := fold_image_first_good href sect.blocks ⟨[], [], none, none⟩ rfl
    exact ⟨fun v hv => himg ▸ hfold.1 v hv, fun hv => himg ▸ hfold.2 hv⟩
  · intro href st b himg hbad
    simp only [collectStep]
    repeat' split
    all_goals simp_all
  · intro s c attrs hc h
    simp only [CrumbsParser.handle_starttag]
    repeat' split
    all_goals simp_all
  · intro s c attrs hc hbad
    simp only [CrumbsParser.handle_starttag]
    repeat' split
    all_goals simp_all [srcBad]

/-- C8 witness: the amended characterisation applied to the counterexample
section and to concrete step states. -/
theorem C8_witness :
    (∀ v, firstGoodImage "d/x.xhtml" sectC8.blocks = some v →
      Recipe.imageHref ⟨"Cake", none, "Bake.", "epub", "d/x.xhtml", some "d/b.jpg",
        "href", "d/x.xhtml"⟩ = some v) ∧
    (collectStep "d" ⟨[], [], none, some "set.jpg"⟩ ⟨"img", "late.jpg", none, none⟩).imageHref =
      some "set.jpg" :=
  ⟨((C8_amended_first_image.1 sectC8 "d/x.xhtml" _ (by decide)).1 : _),
   C8_amended_first_image.2.1 "d" ⟨[], [], none, some "set.jpg"⟩
     ⟨"img", "late.jpg", none, none⟩ (by decide)⟩

/-! ## Path-model lemmas (C2) -/

theorem splitSl_no_slash : ∀ (g : List Char), (∀ c ∈ g, c ≠ '/') → splitSl g = [g] := by
  intro g
  induction g with
  | nil => intro _; rfl
  | cons c g2 ih =>
    intro h
    have hc : ¬(c == '/') = true := by simpa using h c (by simp)
    rw [splitSl, if_neg hc, ih (fun x hx => h x (by simp [hx]))]

theorem splitSl_append_sep : ∀ (g t : List Char), (∀ c ∈ g, c ≠ '/') →
    splitSl (g ++ '/' :: t) = g :: splitSl t := by
  intro g
  induction g with
  | nil =>
    intro t _
    show splitSl ('/' :: t) = [] :: splitSl t
    simp [splitSl]
  | cons c g2 ih =>
    intro t h
    have hc : ¬(c == '/') = true := by simpa using h c (by simp)
    show splitSl (c :: (g2 ++ '/' :: t)) = (c :: g2) :: splitSl t
    rw [splitSl, if_neg hc, ih t (fun x hx => h x (by simp [hx]))]

theorem slashJoin_append : ∀ (a b : List (List Char)), a ≠ [] → b ≠ [] →
    slashJoin (a ++ b) = slashJoin a ++ '/' :: slashJoin b := by
  intro a
  induction a with
  | nil => intro b h _; exact absurd rfl h
  | cons g a2 ih =>
    intro b _ hb
    cases a2 with
    | nil =>
      cases b with
      | nil => exact absurd rfl hb
      | cons b0 b2 => rfl
    | cons g2 a3 =>
      show slashJoin (g :: (g2 :: a3 ++ b)) = slashJoin (g :: g2 :: a3) ++ '/' :: slashJoin b
      have h1 : slashJoin (g :: (g2 :: a3 ++ b)) = g ++ '/' :: slashJoin (g2 :: a3 ++ b) := by
        cases a3 ++ b with
        | nil => rfl
        | cons x xs => rfl
      rw [h1, ih b (by simp) hb,
        show slashJoin (g :: g2 :: a3) = g ++ '/' :: slashJoin (g2 :: a3) from rfl,
        List.append_assoc]
      rfl

theorem splitSl_slashJoin : ∀ (segs : List (List Char)), segs ≠ [] →
    (∀ g ∈ segs, ∀ c ∈ g, c ≠ '/') → splitSl (slashJoin segs) = segs := by
  intro segs
  induction segs with
  | nil => intro h _; exact absurd rfl h
  | cons g rest ih =>
    intro _ h
    cases rest with
    | nil => exact splitSl_no_slash g (h g (by simp))
    | cons g2 r2 =>
      show splitSl (g ++ '/' :: slashJoin (g2 :: r2)) = g :: g2 :: r2
      rw [splitSl_append_sep g _ (h g (by simp)),
        ih (by simp) (fun x hx => h x (by simp [hx]))]

theorem slashJoin_head_ne_slash (g : List Char) (rest : List (List Char))
    (hg : g ≠ []) (hgc : ∀ c ∈ g, c ≠ '/') :
    ∃ c cs, slashJoin (g :: rest) = c :: cs ∧ c ≠ '/' := by
  cases g with
  | nil => exact absurd rfl hg
  | cons c g2 =>
    cases rest with
    | nil => exact ⟨c, g2, rfl, hgc c (by simp)⟩
    | cons x xs => exact ⟨c, g2 ++ '/' :: slashJoin (x :: xs), rfl, hgc c (by simp)⟩

theorem normComp_clean_foldl (h : Bool) :
    ∀ (comps : List (List Char)), (∀ g ∈ comps, g ≠ [] ∧ g ≠ ['.'] ∧ g ≠ ['.', '.']) →
      ∀ acc, comps.foldl (normComp h) acc = comps.reverse ++ acc := by
  intro comps
  induction comps with
  | nil => intro _ acc; rfl
  | cons g rest ih =>
    intro hc acc
    have hg := hc g (by simp)
    rw [List.foldl_cons]
    have hstep : normComp h acc g = g :: acc := by
      unfold normComp
      rw [if_neg (by simp [hg.1, hg.2.1]), if_pos (Or.inl hg.2.2)]
    rw [hstep, ih (fun x hx => hc x (by simp [hx])) (g :: acc)]
    simp


theorem initSlashes_of_head_ne (c : Char) (cs : List Char) (h : c ≠ '/') :
    initSlashes (c :: cs) = 0 := by
  unfold initSlashes
  split <;> simp_all

theorem slashJoin_getLast?_ne_slash :
    ∀ (segs : List (List Char)), (∀ g ∈ segs, g ≠ [] ∧ ∀ c ∈ g, c ≠ '/') →
      ∀ x, (slashJoin segs).getLast? = some x → x ≠ '/' := by
  intro segs
  induction segs with
  | nil => intro _ x hx; cases hx
  | cons g rest ih =>
    intro h x hx
    cases rest with
    | nil =>
      exact (h g (by simp)).2 x (mem_of_getLast?_some hx)
    | cons g2 r2 =>
      obtain ⟨c2, cs2, hj2, _⟩ := slashJoin_head_ne_slash g2 r2 (h g2 (by simp)).1
        (fun y hy => (h g2 (by simp)).2 y hy)
      have hne2 : slashJoin (g2 :: r2) ≠ [] := by rw [hj2]; simp
      rw [show slashJoin (g :: g2 :: r2) = g ++ '/' :: slashJoin (g2 :: r2) from rfl,
        List.getLast?_append_cons] at hx
      apply ih (fun y hy => h y (by simp [hy])) x
      rwa [show ('/' :: slashJoin (g2 :: r2) : List Char) = ['/'] ++ slashJoin (g2 :: r2)
          from rfl, List.getLast?_append_of_ne_nil _ hne2] at hx

theorem dropWhile_append_all {p : Char → Bool} :
    ∀ (l1 l2 : List Char), (∀ a ∈ l1, p a = true) →
      List.dropWhile p (l1 ++ l2) = List.dropWhile p l2 := by
  intro l1
  induction l1 with
  | nil => intro l2 _; rfl
  | cons a t ih =>
    intro l2 h
    rw [List.cons_append, List.dropWhile_cons_of_pos (h a (by simp))]
    exact ih l2 (fun x hx => h x (by simp [hx]))

theorem normpathL_clean (segs : List (List Char)) (hne : segs ≠ [])
    (hc : ∀ g ∈ segs, cleanSeg g) :
    normpathL (slashJoin segs) = slashJoin segs := by
  obtain ⟨g, rest, hgr⟩ : ∃ g rest, segs = g :: rest := by
    cases segs with
    | nil => exact absurd rfl hne
    | cons g rest => exact ⟨g, rest, rfl⟩
  subst hgr
  obtain ⟨c, cs, hj, hcs⟩ := slashJoin_head_ne_slash g rest (hc g (by simp)).1
    (fun x hx => (hc g (by simp)).2.2.2 x hx)
  have hne2 : slashJoin (g :: rest) ≠ [] := by rw [hj]; simp
  have hisl : initSlashes (slashJoin (g :: rest)) = 0 := by
    rw [hj]
    exact initSlashes_of_head_ne c cs hcs
  simp only [normpathL]
  rw [if_neg hne2, hisl]
  rw [splitSl_slashJoin (g :: rest) (by simp) (fun x hx => (hc x hx).2.2.2)]
  rw [normComp_clean_foldl _ _ (fun x hx => ⟨(hc x hx).1, (hc x hx).2.1, (hc x hx).2.2.1⟩) []]
  simp only [List.append_nil, List.reverse_reverse, List.replicate, List.nil_append]
  rw [if_neg hne2]

theorem dirnameL_slashJoin (segs : List (List Char)) (hne : segs ≠ [])
    (hc : ∀ g ∈ segs, cleanSeg g) :
    dirnameL (slashJoin segs) = slashJoin segs.dropLast := by
  induction segs using List.reverseRecOn with
  | nil => exact absurd rfl hne
  | append_singleton init lastseg ih =>
    clear ih hne
    have hlast : cleanSeg lastseg := hc lastseg (by simp)
    rw [List.dropLast_concat]
    cases init with
    | nil =>
      show dirnameL (slashJoin [lastseg]) = slashJoin []
      show dirnameL lastseg = []
      unfold dirnameL
      have hdrop : lastseg.reverse.dropWhile (fun c => c != '/') = [] := by
        apply List.dropWhile_eq_nil_iff.mpr
        intro x hx
        simpa using hlast.2.2.2 x (List.mem_reverse.mp hx)
      rw [hdrop]
      simp
    | cons i0 irest =>
      have hinit : ∀ g ∈ i0 :: irest, cleanSeg g :=
        fun g hg => hc g (List.mem_append_left _ hg)
      have hJne : slashJoin (i0 :: irest) ≠ [] := by
        obtain ⟨c, cs, hj, _⟩ := slashJoin_head_ne_slash i0 irest (hinit i0 (by simp)).1
          (fun x hx => (hinit i0 (by simp)).2.2.2 x hx)
        rw [hj]
        simp
      have hsplit : slashJoin ((i0 :: irest) ++ [lastseg]) =
          slashJoin (i0 :: irest) ++ '/' :: lastseg :=
        slashJoin_append (i0 :: irest) [lastseg] (by simp) (by simp)
      rw [hsplit]
      unfold dirnameL
      have hrev : (slashJoin (i0 :: irest) ++ '/' :: lastseg).reverse =
          lastseg.reverse ++ '/' :: (slashJoin (i0 :: irest)).reverse := by
        rw [List.reverse_append, List.reverse_cons, List.append_assoc]
        simp
      rw [hrev]
      rw [dropWhile_append_all _ _ (fun a ha => by
        simpa using hlast.2.2.2 a (List.mem_reverse.mp ha))]
      rw [List.dropWhile_cons_of_neg (by simp)]
      have hhead : ('/' :: (slashJoin (i0 :: irest)).reverse).reverse =
          slashJoin (i0 :: irest) ++ ['/'] := by
        rw [List.reverse_cons, List.reverse_reverse]
      rw [hhead]
      have hne3 : slashJoin (i0 :: irest) ++ ['/'] ≠ [] := by simp
      have hnotall : ¬ (slashJoin (i0 :: irest) ++ ['/']).all (fun c => c == '/') = true := by
        obtain ⟨c, cs, hj, hcne⟩ := slashJoin_head_ne_slash i0 irest (hinit i0 (by simp)).1
          (fun x hx => (hinit i0 (by simp)).2.2.2 x hx)
        rw [hj]
        intro hall
        have := List.all_eq_true.mp hall c (by simp)
        simp at this
        exact hcne this
      rw [if_pos ⟨hne3, hnotall⟩]
      rw [List.reverse_append]
      show ((['/'].reverse ++ (slashJoin (i0 :: irest)).reverse).dropWhile
        (fun c => c == '/')).reverse = _
      rw [show (['/'] : List Char).reverse = ['/'] from rfl]
      rw [show (['/'] ++ (slashJoin (i0 :: irest)).reverse : List Char) =
        '/' :: (slashJoin (i0 :: irest)).reverse from rfl]
      rw [List.dropWhile_cons_of_pos (by simp)]
      have hdw : (slashJoin (i0 :: irest)).reverse.dropWhile (fun c => c == '/') =
          (slashJoin (i0 :: irest)).reverse := by
        cases hr : (slashJoin (i0 :: irest)).reverse with
        | nil => rfl
        | cons x xs =>
          have hx : (slashJoin (i0 :: irest)).getLast? = some x := by
            rw [← List.head?_reverse, hr]
            rfl
          have hxne : x ≠ '/' := slashJoin_getLast?_ne_slash (i0 :: irest)
            (fun g hg => ⟨(hinit g hg).1, fun y hy => (hinit g hg).2.2.2 y hy⟩) x hx
          rw [List.dropWhile_cons_of_neg (by simpa using hxne)]
      rw [hdw, List.reverse_reverse]

theorem litHead_slash_false (c : Char) (cs : List Char) (h : c ≠ '/') :
    litHead ['/'] (c :: cs) = false := by
  show (('/' == c) && litHead [] cs) = false
  have h2 : ('/' == c) = false := by
    rw [beq_eq_false_iff_ne]
    exact fun heq => h heq.symm
  rw [h2]
  rfl

theorem posixJoinL_clean (hsegs ssegs : List (List Char)) (hs : ssegs ≠ [])
    (hch : ∀ g ∈ hsegs, cleanSeg g) (hcs : ∀ g ∈ ssegs, cleanSeg g) :
    posixJoinL (slashJoin hsegs) (slashJoin ssegs) = slashJoin (hsegs ++ ssegs) := by
  obtain ⟨s0, srest, hsr⟩ : ∃ s0 srest, ssegs = s0 :: srest := by
    cases ssegs with
    | nil => exact absurd rfl hs
    | cons s0 srest => exact ⟨s0, srest, rfl⟩
  subst hsr
  obtain ⟨c, cs, hj, hcne⟩ := slashJoin_head_ne_slash s0 srest (hcs s0 (by simp)).1
    (fun x hx => (hcs s0 (by simp)).2.2.2 x hx)
  have hb : litHead ['/'] (slashJoin (s0 :: srest)) = false := by
    rw [hj]
    exact litHead_slash_false c cs hcne
  unfold posixJoinL
  rw [if_neg (by simp [hb])]
  cases hsegs with
  | nil =>
    have hcond : slashJoin ([] : List (List Char)) = [] ∨
        (slashJoin ([] : List (List Char))).getLast? = some '/' := Or.inl rfl
    rw [if_pos hcond]
    rfl
  | cons h0 hrest =>
    have hJne : slashJoin (h0 :: hrest) ≠ [] := by
      obtain ⟨c2, cs2, hj2, _⟩ := slashJoin_head_ne_slash h0 hrest (hch h0 (by simp)).1
        (fun x hx => (hch h0 (by simp)).2.2.2 x hx)
      rw [hj2]
      simp
    have hlastne : (slashJoin (h0 :: hrest)).getLast? ≠ some '/' := by
      intro hcon
      exact slashJoin_getLast?_ne_slash (h0 :: hrest)
        (fun g hg => ⟨(hch g hg).1, fun y hy => (hch g hg).2.2.2 y hy⟩) '/' hcon rfl
    rw [if_neg (by
      rintro (h | h)
      · exact hJne h
      · exact hlastne h)]
    exact (slashJoin_append (h0 :: hrest) (s0 :: srest) (by simp) (by simp)).symm

theorem crumbs_resolve_clean (hsegs ssegs : List (List Char)) (hh : hsegs ≠ [])
    (hs : ssegs ≠ []) (hc : ∀ g ∈ hsegs ++ ssegs, cleanSeg g) :
    (normpathL (posixJoinL (dirnameL (slashJoin hsegs)) (slashJoin ssegs))).dropWhile
        (· == '/') = slashJoin (hsegs.dropLast ++ ssegs) := by
  have hch : ∀ g ∈ hsegs, cleanSeg g := fun g hg => hc g (List.mem_append_left _ hg)
  have hcs : ∀ g ∈ ssegs, cleanSeg g := fun g hg => hc g (List.mem_append_right _ hg)
  have hcd : ∀ g ∈ hsegs.dropLast, cleanSeg g :=
    fun g hg => hch g ((List.dropLast_sublist hsegs).mem hg)
  rw [dirnameL_slashJoin hsegs hh hch,
    posixJoinL_clean hsegs.dropLast ssegs hs hcd hcs]
  have hall : ∀ g ∈ hsegs.dropLast ++ ssegs, cleanSeg g := by
    intro g hg
    rcases List.mem_append.mp hg with h | h
    · exact hcd g h
    · exact hcs g h
  have hne : hsegs.dropLast ++ ssegs ≠ [] := by
    intro hcon
    rcases List.append_eq_nil.mp hcon with ⟨-, h2⟩
    exact hs h2
  rw [normpathL_clean _ hne hall]
  obtain ⟨g0, grest, hgr⟩ : ∃ g0 grest, hsegs.dropLast ++ ssegs = g0 :: grest := by
    cases hx : hsegs.dropLast ++ ssegs with
    | nil => exact absurd hx hne
    | cons g0 grest => exact ⟨g0, grest, rfl⟩
  rw [hgr]
  obtain ⟨c, cs, hj, hcne⟩ := slashJoin_head_ne_slash g0 grest
    (hall g0 (by rw [hgr]; simp)).1
    (fun x hx => (hall g0 (by rw [hgr]; simp)).2.2.2 x hx)
  rw [hj, List.dropWhile_cons_of_neg (by simpa using hcne), ← hj]

theorem generic_resolve_clean (hsegs ssegs : List (List Char)) (hh : hsegs ≠ [])
    (hs : ssegs ≠ []) (hc : ∀ g ∈ hsegs ++ ssegs, cleanSeg g) :
    ppStr (ppJoinRel (ppParent (ppParse (slashJoin hsegs))) (slashJoin ssegs)) =
      slashJoin (hsegs.dropLast ++ ssegs) := by
  have hch : ∀ g ∈ hsegs, cleanSeg g := fun g hg => hc g (List.mem_append_left _ hg)
  have hcs : ∀ g ∈ ssegs, cleanSeg g := fun g hg => hc g (List.mem_append_right _ hg)
  obtain ⟨h0, hrest, hhr⟩ : ∃ h0 hrest, hsegs = h0 :: hrest := by
    cases hsegs with
    | nil => exact absurd rfl hh
    | cons h0 hrest => exact ⟨h0, hrest, rfl⟩
  obtain ⟨c, cs, hj, hcne⟩ := slashJoin_head_ne_slash h0 hrest
    (hch h0 (by rw [hhr]; simp)).1
    (fun x hx => (hch h0 (by rw [hhr]; simp)).2.2.2 x hx)
  have hsegsfilter : ppSegs (slashJoin hsegs) = hsegs := by
    unfold ppSegs
    rw [splitSl_slashJoin hsegs hh (fun g hg => (hch g hg).2.2.2)]
    apply List.filter_eq_self.mpr
    intro g hg
    simp [(hch g hg).1, (hch g hg).2.1]
  have hssegsfilter : ppSegs (slashJoin ssegs) = ssegs := by
    unfold ppSegs
    rw [splitSl_slashJoin ssegs hs (fun g hg => (hcs g hg).2.2.2)]
    apply List.filter_eq_self.mpr
    intro g hg
    simp [(hcs g hg).1, (hcs g hg).2.1]
  have hparse : ppParse (slashJoin hsegs) = ⟨0, hsegs⟩ := by
    unfold ppParse
    rw [hsegsfilter]
    rw [hhr, hj]
    rw [initSlashes_of_head_ne c cs hcne]
  rw [hparse]
  have hparent : ppParent ⟨0, hsegs⟩ = ⟨0, hsegs.dropLast⟩ := by
    unfold ppParent
    rw [if_neg (by simp [hhr])]
  rw [hparent]
  unfold ppJoinRel
  rw [hssegsfilter]
  unfold ppStr
  have hpne : hsegs.dropLast ++ ssegs ≠ [] := by
    intro hcon
    rcases List.append_eq_nil.mp hcon with ⟨-, h2⟩
    exact hs h2
  rw [if_neg (by simp [hpne])]
  simp

/-! ## Claim C2 -/

/-- C2 (corrected), counterexample: the generic classifier resolves via
`PurePosixPath`, which does NOT collapse `..` segments: with document
location "recipes/ch1.xhtml" and source "../pie.jpg" the stored reference is
"recipes/../pie.jpg", while the claimed resolver (collapse `.`/`..`) — which
is what the specialised parser implements — yields "pie.jpg".  The two
pipelines therefore do not resolve identically. -/
theorem C2_counterexample :
    (collect_recipe_from_section sectC2 "recipes/ch1.xhtml").map Recipe.imageHref =
      some (some "recipes/../pie.jpg") ∧
    specResolveImage "recipes/ch1.xhtml" "../pie.jpg" = "pie.jpg" ∧
    ("recipes/../pie.jpg" : String) ≠ "pie.jpg" := by
  decide

/-- C2 (corrected), amended: if the source starts with "/" the generic
classifier stores it with all leading slashes stripped and no further
normalisation; otherwise it joins the source onto the parent of the document
location, dropping `.` segments and duplicate slashes but PRESERVING `..`
segments, while the specialised parser fully normalises (collapsing `..`)
and strips leading slashes.  On clean inputs — non-empty, slash-free,
non-dot segments — the two resolvers agree and both produce the parent
segments followed by the source segments. -/
theorem C2_amended_image_resolution :
    (∀ (href src : String), pyStarts "/" src = true →
        genericResolve href src = lstripSlashes src) ∧
    (∀ (hsegs ssegs : List (List Char)), hsegs ≠ [] → ssegs ≠ [] →
        (∀ g ∈ hsegs ++ ssegs, cleanSeg g) →
        genericResolve ⟨slashJoin hsegs⟩ ⟨slashJoin ssegs⟩ =
          crumbsResolve ⟨slashJoin hsegs⟩ ⟨slashJoin ssegs⟩ ∧
        genericResolve ⟨slashJoin hsegs⟩ ⟨slashJoin ssegs⟩ =
          ⟨slashJoin (hsegs.dropLast ++ ssegs)⟩) := by
  constructor
  · intro href src h
    unfold genericResolve
    rw [if_pos h]
  · intro hsegs ssegs hh hs hc
    have hcs : ∀ g ∈ ssegs, cleanSeg g := fun g hg => hc g (List.mem_append_right _ hg)
    obtain ⟨s0, srest, hsr⟩ : ∃ s0 srest, ssegs = s0 :: srest := by
      cases ssegs with
      | nil => exact absurd rfl hs
      | cons s0 srest => exact ⟨s0, srest, rfl⟩
    obtain ⟨c, cs, hj, hcne⟩ := slashJoin_head_ne_slash s0 srest
      (hcs s0 (by rw [hsr]; simp)).1
      (fun x hx => (hcs s0 (by rw [hsr]; simp)).2.2.2 x hx)
    have hstart : pyStarts "/" ⟨slashJoin ssegs⟩ = false := by
      show litHead "/".data (slashJoin ssegs) = false
      rw [hsr, hj]
      exact litHead_slash_false c cs hcne
    have hgen : genericResolve ⟨slashJoin hsegs⟩ ⟨slashJoin ssegs⟩ =
        ⟨slashJoin (hsegs.dropLast ++ ssegs)⟩ := by
      unfold genericResolve
      rw [if_neg (by simp [hstart])]
      exact congrArg String.mk (generic_resolve_clean hsegs ssegs hh hs hc)
    have hcr : crumbsResolve ⟨slashJoin hsegs⟩ ⟨slashJoin ssegs⟩ =
        ⟨slashJoin (hsegs.dropLast ++ ssegs)⟩ :=
      congrArg String.mk (crumbs_resolve_clean hsegs ssegs hh hs hc)
    exact ⟨hgen.trans hcr.symm, hgen⟩

/-- C2 witness: both resolvers evaluated on the spec's own example inputs,
and the absolute-source branch on a concrete source. -/
theorem C2_witness :
    genericResolve "recipes/ch1.xhtml" "img/pie.jpg" =
      crumbsResolve "recipes/ch1.xhtml" "img/pie.jpg" ∧
    genericResolve "recipes/ch1.xhtml" "img/pie.jpg" = "recipes/img/pie.jpg" ∧
    genericResolve "x/a.xhtml" "/img.png" = lstripSlashes "/img.png" :=
  ⟨(C2_amended_image_resolution.2 ["recipes".data, "ch1.xhtml".data]
      ["img".data, "pie.jpg".data] (by decide) (by decide) (by decide)).1,
   (C2_amended_image_resolution.2 ["recipes".data, "ch1.xhtml".data]
      ["img".data, "pie.jpg".data] (by decide) (by decide) (by decide)).2,
   C2_amended_image_resolution.1 "x/a.xhtml" "/img.png" (by decide)⟩

/-! ## Claim C7 -/

theorem take_append_left {α : Type} :
    ∀ (l1 : List α) (n : Nat), n ≤ l1.length → ∀ (l2 : List α),
      (l1 ++ l2).take n = l1.take n := by
  intro l1
  induction l1 with
  | nil =>
    intro n h l2
    rw [Nat.le_zero.mp h]
    rfl
  | cons x t ih =>
    intro n h l2
    cases n with
    | zero => rfl
    | succ n2 =>
      show List.take (n2 + 1) (x :: (t ++ l2)) = List.take (n2 + 1) (x :: t)
      rw [List.take_succ_cons, List.take_succ_cons, ih n2 (Nat.le_of_succ_le_succ h) l2]

theorem capHit_none (len : Nat) : capHit none len = false := rfl

theorem capHit_zero (len : Nat) : capHit (some 0) len = false := rfl

theorem capHit_pos (n len : Nat) (h : 1 ≤ n) :
    capHit (some n) len = decide (n ≤ len) := by
  show ((n != 0) && decide (n ≤ len)) = decide (n ≤ len)
  rw [show (n != 0) = true by simpa using Nat.pos_iff_ne_zero.mp h, Bool.true_and]

/-- The uncapped section loop appends exactly the classified sections. -/
theorem sectLoop_none (href : String) :
    ∀ (sects : List Sect) (acc : List Recipe),
      sectLoop href none acc sects =
        (acc ++ sects.filterMap (fun s => collect_recipe_from_section s href), false) := by
  intro sects
  induction sects with
  | nil => intro acc; simp [sectLoop]
  | cons s rest ih =>
    intro acc
    cases hcs : collect_recipe_from_section s href with
    | none =>
      simp only [sectLoop, hcs, List.filterMap_cons]
      exact ih acc
    | some r =>
      simp only [sectLoop, hcs, List.filterMap_cons, capHit_none]
      rw [if_neg (by simp)]
      rw [ih (acc ++ [r])]
      simp

/-- The uncapped document loop appends every document's recipes. -/
theorem docLoop_none :
    ∀ (book : List Doc) (acc : List Recipe),
      docLoop none acc book =
        acc ++ book.flatMap (fun d => (extract_section (parse_blocks d.2)).filterMap
          (fun s => collect_recipe_from_section s d.1)) := by
  intro book
  induction book with
  | nil => intro acc; simp [docLoop]
  | cons d rest ih =>
    intro acc
    rw [docLoop, sectLoop_none]
    simp only
    rw [ih]
    simp [List.flatMap_cons, List.append_assoc]

/-- The capped section loop is a truncation of the uncapped one. -/
theorem sectLoop_cap (href : String) (n : Nat) (hn : 1 ≤ n) :
    ∀ (sects : List Sect) (acc : List Recipe), acc.length < n →
      sectLoop href (some n) acc sects =
        ((acc ++ sects.filterMap (fun s => collect_recipe_from_section s href)).take n,
         decide (n ≤ (acc ++ sects.filterMap
           (fun s => collect_recipe_from_section s href)).length)) := by
  intro sects
  induction sects with
  | nil =>
    intro acc hlt
    simp only [List.filterMap_nil, List.append_nil, sectLoop]
    rw [List.take_of_length_le (Nat.le_of_lt hlt),
      decide_eq_false (Nat.not_le.mpr hlt)]
  | cons s rest ih =>
    intro acc hlt
    cases hcs : collect_recipe_from_section s href with
    | none =>
      simp only [sectLoop, hcs, List.filterMap_cons]
      exact ih acc hlt
    | some r =>
      simp only [sectLoop, hcs, List.filterMap_cons]
      rw [capHit_pos n _ hn]
      by_cases hcap : n ≤ (acc ++ [r]).length
      · have hlen1 : (acc ++ [r]).length = acc.length + 1 := by simp
        have hneq : n = acc.length + 1 :=
          Nat.le_antisymm (hlen1 ▸ hcap) (Nat.succ_le_of_lt hlt)
        rw [if_pos (by simpa using hcap)]
        have htake : (acc ++ r :: List.filterMap
            (fun s2 => collect_recipe_from_section s2 href) rest).take n = acc ++ [r] := by
          rw [show acc ++ r :: List.filterMap (fun s2 => collect_recipe_from_section s2 href)
              rest = (acc ++ [r]) ++ List.filterMap
              (fun s2 => collect_recipe_from_section s2 href) rest by simp,
            take_append_left _ n (by rw [hlen1, hneq]),
            List.take_of_length_le (by rw [hlen1, hneq])]
        rw [htake, decide_eq_true (by simp [hneq])]
      · rw [if_neg (by simpa using hcap)]
        have hlt2 : (acc ++ [r]).length < n := Nat.lt_of_not_le hcap
        rw [ih (acc ++ [r]) hlt2]
        simp [List.append_assoc]

/-- The capped document loop is a truncation of the uncapped one. -/
theorem docLoop_cap (n : Nat) (hn : 1 ≤ n) :
    ∀ (book : List Doc) (acc : List Recipe), acc.length < n →
      docLoop (some n) acc book =
        (acc ++ book.flatMap (fun d => (extract_section (parse_blocks d.2)).filterMap
          (fun s => collect_recipe_from_section s d.1))).take n := by
  intro book
  induction book with
  | nil =>
    intro acc hlt
    simp only [List.flatMap_nil, List.append_nil, docLoop]
    rw [List.take_of_length_le (Nat.le_of_lt hlt)]
  | cons d rest ih =>
    intro acc hlt
    rw [docLoop, sectLoop_cap d.1 n hn _ acc hlt]
    simp only [List.flatMap_cons]
    by_cases hflag : n ≤ (acc ++ (extract_section (parse_blocks d.2)).filterMap
        (fun s => collect_recipe_from_section s d.1)).length
    · rw [show decide (n ≤ (acc ++ (extract_section (parse_blocks d.2)).filterMap
          (fun s => collect_recipe_from_section s d.1)).length) = true
          from decide_eq_true hflag]
      simp only
      rw [← List.append_assoc, take_append_left _ n hflag]
    · rw [show decide (n ≤ (acc ++ (extract_section (parse_blocks d.2)).filterMap
          (fun s => collect_recipe_from_section s d.1)).length) = false
          from decide_eq_false (fun hcon => hflag hcon)]
      simp only
      have hlt2 : ((acc ++ (extract_section (parse_blocks d.2)).filterMap
          (fun s => collect_recipe_from_section s d.1)).take n).length < n := by
        rw [List.take_of_length_le (Nat.le_of_lt (Nat.lt_of_not_le hflag))]
        exact Nat.lt_of_not_le hflag
      rw [ih _ hlt2]
      rw [List.take_of_length_le (Nat.le_of_lt (Nat.lt_of_not_le hflag))]
      simp [List.append_assoc]

/-- A cap that can never fire leaves the loops identical to the uncapped
run. -/
theorem sectLoop_zero (href : String) :
    ∀ (sects : List Sect) (acc : List Recipe),
      sectLoop href (some 0) acc sects = sectLoop href none acc sects := by
  intro sects
  induction sects with
  | nil => intro acc; rfl
  | cons s rest ih =>
    intro acc
    rw [sectLoop, sectLoop]
    cases hcs : collect_recipe_from_section s href with
    | none => exact ih acc
    | some r =>
      simp only [capHit_zero, capHit_none, if_neg (by simp : ¬ false = true)]
      exact ih (acc ++ [r])

theorem docLoop_zero :
    ∀ (book : List Doc) (acc : List Recipe),
      docLoop (some 0) acc book = docLoop none acc book := by
  intro book
  induction book with
  | nil => intro acc; rfl
  | cons d rest ih =>
    intro acc
    rw [docLoop, docLoop, sectLoop_zero]
    cases sectLoop d.1 none acc (extract_section (parse_blocks d.2)) with
    | mk acc2 flag =>
      cases flag with
      | true => rfl
      | false => exact ih acc2

/-- C7 (confirmed): with `max_recipes = N ≥ 1` each pipeline returns the
first `N` records (in discovery order) of its unrestricted run, hence at
most `N` records; `max_recipes = 0` or unset imposes no limit.  (The
specialised pipeline satisfies this trivially as it provably returns no
records, see C3; the generic statement carries the content.) -/
theorem C7_max_recipes_cap :
    (∀ (book : List Doc) (n : Nat), 1 ≤ n →
        extract_epub_recipes_generic book (some n) =
          (extract_epub_recipes_generic book none).take n ∧
        (extract_epub_recipes_generic book (some n)).length ≤ n) ∧
    (∀ (book : List Doc),
        extract_epub_recipes_generic book (some 0) =
          extract_epub_recipes_generic book none) ∧
    (∀ (book : List Doc) (n : Nat), 1 ≤ n →
        extract_crumbs_doilies_recipes book (some n) =
          (extract_crumbs_doilies_recipes book none).take n ∧
        (extract_crumbs_doilies_recipes book (some n)).length ≤ n) ∧
    (∀ (book : List Doc),
        extract_crumbs_doilies_recipes book (some 0) =
          extract_crumbs_doilies_recipes book none) := by
  refine ⟨?_, ?_, ?_, ?_⟩
  · intro book n hn
    have h1 : extract_epub_recipes_generic book (some n) =
        (extract_epub_recipes_generic book none).take n := by
      unfold extract_epub_recipes_generic
      rw [docLoop_cap n hn book [] (by simpa using hn), docLoop_none]
    refine ⟨h1, ?_⟩
    rw [h1]
    have := List.length_take n (extract_epub_recipes_generic book none)
    omega
  · intro book
    unfold extract_epub_recipes_generic
    exact docLoop_zero book []
  · intro book n hn
    rw [extract_crumbs_nil book (some n), extract_crumbs_nil book none]
    exact ⟨by simp, by simp⟩
  · intro book
    rw [extract_crumbs_nil book (some 0), extract_crumbs_nil book none]

/-- C7 witness: a concrete two-recipe book capped at one recipe. -/
theorem C7_witness :
    extract_epub_recipes_generic bookC7 (some 1) =
      (extract_epub_recipes_generic bookC7 none).take 1 ∧
    (extract_epub_recipes_generic bookC7 none).length = 2 :=
  ⟨(C7_max_recipes_cap.1 bookC7 1 (by decide)).1, by decide⟩

end Bayleaf